import Mathlib

/-!
Verification development for the MCTS engine in src/mcts/mcts.cpp.

The C++ core (class MCTSTree / MCTSNode) is shallowly embedded as pure
Lean functions over an explicit tree state.  Design of the embedding:

- `shared_ptr` heap: nodes live in an association list `heap` keyed by
  `NodeId`; a node is alive iff its id is present.  A `weak_ptr` back
  reference is an `Option NodeId` (`none` models a `weak_ptr` built from
  `nullptr`, as in the MCTSNode constructor); such an entry is expired
  when it is `none` or its id is no longer in the heap.
- `shared_ptr` reclamation: ownership of a node is root-set membership or
  membership in the `children` list of a live node.  When edges are
  dropped, a cascade (`gc`) repeatedly destroys ownerless nodes,
  mirroring the recursive `shared_ptr` destructor chain; `pins` lists
  nodes kept alive by locals on the executing C++ call stack.
- `float` arithmetic is idealised as exact rational arithmetic; `sqrtf`
  on a (nonnegative integral) parent visit sum is a parameter
  `sqrtN : Nat → ℚ` of every definition that needs it, so all general
  theorems hold for any square-root semantics.  Concrete evaluations use
  `ratSqrt`, which is exact on the perfect-square inputs they exercise.
- Potentially nonterminating C++ loops (the recursion of
  `prune_ancestors`, the selection walk) take explicit fuel.
- The game rules engine (class Board) is external per the specification;
  it is a parameter `Game` supplying `get_valid_moves`, `move`,
  `game_winner`, `player` and the player constants.
-/

namespace MCTS

abbrev NodeId := Nat

abbrev BoardId := Nat

/-- External game interface consumed by the core (the Board collaborator):
legal-move list, move application, winner query, player-to-move and the
distinguished player constants. -/
structure Game where
  get_valid_moves : BoardId → List Nat
  move : BoardId → Nat → BoardId
  game_winner : BoardId → Int
  player : BoardId → Int
  PLAYER_NONE : Int
  PLAYER_TIE : Int
deriving Inhabited

/-- One MCTSNode: board, statistics, expanded flag, fixed move list, child
edges (owning) and parent back references (weak; `none` is the entry made
from a null parent in the constructor). -/
structure Node where
  board : BoardId
  visits : Nat
  wins : Nat
  ties : Nat
  expanded : Bool
  moves : List Nat
  children : List NodeId
  parents : List (Option NodeId)
deriving DecidableEq, Repr

/-- The MCTSTree state: live-node heap, transposition table (board to
weak node reference), root set and the global counters. -/
structure Tree where
  heap : List (NodeId × Node)
  transposition_table : List (BoardId × NodeId)
  roots : List NodeId
  total_lookups : Nat
  total_hits : Nat
  total_fillicides : Nat
  nextId : NodeId
deriving DecidableEq, Repr

/-- Modelled from the spec: the MCTSTree member initialisers live in
mcts.h, which is not part of src; per the data model all counters start
at zero and the table, heap and root set start empty. -/
def emptyTree : Tree :=
  { heap := [], transposition_table := [], roots := [],
    total_lookups := 0, total_hits := 0, total_fillicides := 0, nextId := 0 }

def hfind (h : List (NodeId × Node)) (id : NodeId) : Option Node :=
  (h.find? (fun kv => kv.1 == id)).map (fun kv => kv.2)

def hset (h : List (NodeId × Node)) (id : NodeId) (f : Node → Node) :
    List (NodeId × Node) :=
  h.map (fun kv => if kv.1 = id then (kv.1, f kv.2) else kv)

def tfind (t : List (BoardId × NodeId)) (b : BoardId) : Option NodeId :=
  (t.find? (fun kv => kv.1 == b)).map (fun kv => kv.2)

def eraseKey (t : List (BoardId × NodeId)) (b : BoardId) :
    List (BoardId × NodeId) :=
  t.eraseP (fun kv => kv.1 == b)

def Tree.node (s : Tree) (id : NodeId) : Option Node := hfind s.heap id

def Tree.alive (s : Tree) (id : NodeId) : Bool := (s.node id).isSome

def Tree.upd (s : Tree) (id : NodeId) (f : Node → Node) : Tree :=
  { s with heap := hset s.heap id f }

def Tree.childrenOf (s : Tree) (id : NodeId) : List NodeId :=
  match s.node id with
  | some n => n.children
  | none => []

def Tree.parentsOf (s : Tree) (id : NodeId) : List (Option NodeId) :=
  match s.node id with
  | some n => n.parents
  | none => []

def Tree.visitsOf (s : Tree) (id : NodeId) : Nat :=
  match s.node id with
  | some n => n.visits
  | none => 0

def Tree.expandedOf (s : Tree) (id : NodeId) : Bool :=
  match s.node id with
  | some n => n.expanded
  | none => false

def Tree.boardOf (s : Tree) (id : NodeId) : BoardId :=
  match s.node id with
  | some n => n.board
  | none => 0

/-- The exploration constant `C = 1.44` of mcts.cpp, as an exact rational. -/
def Cexp : ℚ := 36 / 25

/-- The constant `TIE_REWARD = 0.5` of mcts.cpp. -/
def TIE_REWARD : ℚ := 1 / 2

/-- Square root used for concrete runs: the integer square root computed
by a structurally reducing scan, so it agrees with the real square root
on perfect squares, the only inputs at which concrete instances in this
file evaluate it.  General theorems are stated for an arbitrary
`sqrtN : Nat → ℚ` instead. -/
def ratSqrt (n : Nat) : ℚ :=
  (((List.range (n + 1)).foldl (fun acc k => if k * k ≤ n then k else acc) 0 : Nat) : ℚ)

/-- MCTSNode::Q: `(wins + TIE_REWARD * ties) / (1 + visits)`. -/
def Q (s : Tree) (id : NodeId) : ℚ :=
  match s.node id with
  | none => 0
  | some n => ((n.wins : ℚ) + TIE_REWARD * (n.ties : ℚ)) / (1 + (n.visits : ℚ))

/-- Whether a parent entry is a live (non-expired) back reference. -/
def liveEntry (s : Tree) (e : Option NodeId) : Bool :=
  match e with
  | none => false
  | some p => s.alive p

/-- The lazy cleanup performed while MCTSNode::U (and the parent loop of
prune_ancestors) walks the parent vector: expired entries are erased,
live ones are kept in order. -/
def purgeParents (s : Tree) (id : NodeId) : Tree :=
  s.upd id (fun n => { n with parents := n.parents.filter (liveEntry s) })

def parentVisitSum (s : Tree) (entries : List (Option NodeId)) : Nat :=
  entries.foldl
    (fun acc e =>
      match e with
      | some p => acc + s.visitsOf p
      | none => acc) 0

/-- MCTSNode::U: purges expired parent entries, sums the visits of the
live parents and returns `C * sqrt(sum) / (1 + visits)` together with the
state after the purge. -/
def U (sqrtN : Nat → ℚ) (s : Tree) (id : NodeId) : ℚ × Tree :=
  let s1 := purgeParents s id
  (Cexp * sqrtN (parentVisitSum s1 (s1.parentsOf id)) / (1 + (s1.visitsOf id : ℚ)),
   s1)

/-- MCTSTree::transposition_hitrate: `total_hits / (float)total_lookups`,
with no smoothing term in the denominator. -/
def transposition_hitrate (s : Tree) : ℚ :=
  (s.total_hits : ℚ) / (s.total_lookups : ℚ)

/-- MCTSTree::transposition_size. -/
def transposition_size (s : Tree) : Nat := s.transposition_table.length

/-- MCTSTree::purges: the cumulative node-destruction counter. -/
def purges (s : Tree) : Nat := s.total_fillicides

/-- The `make_shared<MCTSNode>` + table/root bookkeeping of the miss path
of MCTSTree::get_node.  The MCTSNode constructor pushes `new_parent`
unconditionally, so a node created with no parent starts with the single
expired entry `[none]` in its parent vector. -/
def createNode (g : Game) (s : Tree) (b : BoardId) (par : Option NodeId) :
    NodeId × Tree :=
  let id := s.nextId
  let n : Node :=
    { board := b, visits := 0, wins := 0, ties := 0, expanded := false,
      moves := g.get_valid_moves b, children := [], parents := [par] }
  let s1 : Tree :=
    { s with heap := (id, n) :: s.heap,
             transposition_table := (b, id) :: s.transposition_table,
             nextId := id + 1 }
  if par = none then (id, { s1 with roots := s1.roots ++ [id] }) else (id, s1)

/-- MCTSTree::get_node.  The stale-entry branch (`wk_node.expired()`)
erases the dead mapping and retries from the top; since the retry is then
a guaranteed miss, it is inlined here as: second lookup-counter bump, then
the create path. -/
def get_node (g : Game) (s : Tree) (b : BoardId) (par : Option NodeId) :
    NodeId × Tree :=
  let s1 := { s with total_lookups := s.total_lookups + 1 }
  match tfind s1.transposition_table b with
  | some id =>
    if s1.alive id then
      let s2 :=
        if (s1.parentsOf id).length = 0 ∧ par ≠ none
        then { s1 with roots := s1.roots.erase id }
        else s1
      let s3 :=
        match par with
        | some p => s2.upd id (fun n => { n with parents := n.parents ++ [some p] })
        | none => s2
      (id, { s3 with total_hits := s3.total_hits + 1 })
    else
      let s2 :=
        { s1 with transposition_table := eraseKey s1.transposition_table b,
                  total_lookups := s1.total_lookups + 1 }
      createNode g s2 b par
  | none => createNode g s1 b par

/-- MCTSNode::expand: unconditional visit increment; early return when
already expanded; otherwise one get_node + child push per legal move,
with the expanded flag set inside the loop (so a node with no legal moves
never becomes expanded). -/
def expand (g : Game) (s : Tree) (id : NodeId) : Tree :=
  match s.node id with
  | none => s
  | some n0 =>
    let s1 := s.upd id (fun n => { n with visits := n.visits + 1 })
    if n0.expanded then s1
    else
      n0.moves.foldl
        (fun st mv =>
          let st1 := st.upd id (fun n => { n with expanded := true })
          let nb := g.move n0.board mv
          let res := get_node g st1 nb (some id)
          res.2.upd id (fun n => { n with children := n.children ++ [res.1] }))
        s1

/-- One iteration of the expansion loop of MCTSNode::expand, factored out
of the fold body: set the expanded flag, fetch (or create) the child node
for the moved-to board, and push it onto the child list. -/
def expandStep (g : Game) (x : NodeId) (nb : BoardId) (st : Tree) : Tree :=
  let st1 := st.upd x (fun n => { n with expanded := true })
  let res := get_node g st1 nb (some x)
  res.2.upd x (fun n => { n with children := n.children ++ [res.1] })

/-- A node is owned when some live node holds it in its child list
(root-set membership is the other form of ownership). -/
def ownedBy (s : Tree) (id : NodeId) : Bool :=
  s.heap.any (fun kv => kv.2.children.contains id)

/-- A node whose last owner is gone (and that no local `shared_ptr` on the
executing C++ stack pins) is reclaimed. -/
def collectible (s : Tree) (pins : List NodeId) (id : NodeId) : Bool :=
  !(s.roots.contains id) && !(pins.contains id) && !(ownedBy s id)

def findCollectible (s : Tree) (pins : List NodeId) : Option NodeId :=
  (s.heap.find? (fun kv => collectible s pins kv.1)).map (fun kv => kv.1)

/-- The body of ~MCTSNode: remove the node, erase its board's entry from
the transposition table, bump the destroy counter total_fillicides. -/
def destroyNode (s : Tree) (id : NodeId) : Tree :=
  match s.node id with
  | none => s
  | some n =>
    { s with heap := s.heap.filter (fun kv => !(kv.1 == id)),
             transposition_table := eraseKey s.transposition_table n.board,
             total_fillicides := s.total_fillicides + 1 }

def gcAux : Nat → Tree → List NodeId → Tree
  | 0, s, _ => s
  | f+1, s, pins =>
    match findCollectible s pins with
    | none => s
    | some id => gcAux f (destroyNode s id) pins

/-- The `shared_ptr` destructor cascade: repeatedly destroy ownerless
unpinned non-root nodes until none is left.  `heap.length` rounds always
reach the fixpoint because every round removes a node. -/
def gc (s : Tree) (pins : List NodeId) : Tree := gcAux s.heap.length s pins

/-- MCTSNode::filicide: no-op if not expanded, else clear the child list
and reset the flag; dropping the child edges triggers the reclamation
cascade (the victim itself is pinned by the running call). -/
def filicide (s : Tree) (pins : List NodeId) (id : NodeId) : Tree :=
  match s.node id with
  | none => s
  | some n =>
    if n.expanded = false then s
    else gc (s.upd id (fun m => { m with children := [], expanded := false })) (id :: pins)

/-- The `max_visits` computation of MCTSTree::prune, exactly as written:
each loop iteration compares the accumulator against `node->visits` (not
against the child), so the result is `node.visits` when the child list is
nonempty and 0 otherwise. -/
def pruneThreshold (s : Tree) (id : NodeId) : Nat :=
  match s.node id with
  | none => 0
  | some n => n.children.foldl (fun mv _ => if mv > n.visits then mv else n.visits) 0

/-- One iteration of the body of MCTSTree::prune on the dequeued node:
filicide every child whose visit count does not exceed the threshold. -/
def pruneStep (s : Tree) (id : NodeId) : Tree :=
  let thr := pruneThreshold s id
  (s.childrenOf id).foldl
    (fun st c => if st.visitsOf c ≤ thr then filicide st [id] c else st) s

/-- The eviction loop of MCTSTree::prune.  `none` models the undefined
behaviour of `front()`/`pop()` on the empty frontier queue, which the
code reaches whenever the table is still oversized after the last
dequeue (nothing is ever enqueued inside the loop). -/
def pruneLoop (max_size : Nat) : List NodeId → Tree → Option Tree
  | [], s => if transposition_size s ≤ max_size then some s else none
  | n :: rest, s =>
    if transposition_size s ≤ max_size then some s
    else pruneLoop max_size rest (pruneStep s n)

/-- MCTSTree::prune: FIFO frontier seeded with the current roots, then
the eviction loop. -/
def prune (s : Tree) (max_size : Nat) : Option Tree :=
  pruneLoop max_size s.roots s

/-- The children on which one pruneStep invokes filicide, read off the
code: those whose visits do not exceed the threshold. -/
def codePruneTargets (s : Tree) (id : NodeId) : List NodeId :=
  (s.childrenOf id).filter (fun c => s.visitsOf c ≤ pruneThreshold s id)

/-- Stated from the claim wording, for comparison with the code: the
first most-visited child of a node. -/
def mostVisitedChild (s : Tree) (id : NodeId) : Option NodeId :=
  (s.childrenOf id).foldl
    (fun acc c =>
      match acc with
      | none => some c
      | some b => if s.visitsOf c > s.visitsOf b then some c else acc) none

/-- Stated from the claim wording, for comparison with the code: every
child other than the most-visited one whose visit count does not exceed
the most-visited child's count. -/
def claimPruneTargets (s : Tree) (id : NodeId) : List NodeId :=
  match mostVisitedChild s id with
  | none => []
  | some k =>
    ((s.childrenOf id).erase k).filter (fun c => s.visitsOf c ≤ s.visitsOf k)

/-- Stated from the claim wording: one frontier iteration that filicides
exactly the claimed targets. -/
def claimPruneStep (s : Tree) (id : NodeId) : Tree :=
  (claimPruneTargets s id).foldl (fun st c => filicide st [id] c) s

/-- Stated from the claim wording: the eviction loop with the claimed
per-node behaviour. -/
def claimPruneLoop (max_size : Nat) : List NodeId → Tree → Option Tree
  | [], s => if transposition_size s ≤ max_size then some s else none
  | n :: rest, s =>
    if transposition_size s ≤ max_size then some s
    else claimPruneLoop max_size rest (claimPruneStep s n)

/-- Stated from the claim wording: prune as the claim describes it. -/
def claimPrune (s : Tree) (max_size : Nat) : Option Tree :=
  claimPruneLoop max_size s.roots s

/-- Whether entry `i` is prunable given its QU and the upfront list `Qs`:
the two index loops `j < i` and `i < j < size` of prune_children. -/
def prunableAt (qu : ℚ) (Qs : List ℚ) (i : Nat) : Bool :=
  ((Qs.take i) ++ (Qs.drop (i+1))).any (fun q => qu < q)

/-- MCTSNode::prune_children: records every child's Q upfront, then for
each child compares its `Q()+U()` against the recorded Q values of the
other children and filicides it when some other child's Q is strictly
greater. -/
def prune_children (sqrtN : Nat → ℚ) (s : Tree) (id : NodeId) : Tree :=
  match s.node id with
  | some n =>
    let Qs := n.children.map (fun c => Q s c)
    n.children.enum.foldl
      (fun st ic =>
        if prunableAt (Q st ic.2 + (U sqrtN st ic.2).1) Qs ic.1
        then filicide (U sqrtN st ic.2).2 [id] ic.2 else (U sqrtN st ic.2).2)
      s
  | none => s

/-- Stated from the claim wording, for comparison with the code: the
children whose QU = Q + U is strictly below some other child's QU. -/
def claimPruneChildrenTargets (sqrtN : Nat → ℚ) (s : Tree) (id : NodeId) :
    List NodeId :=
  let cs := s.childrenOf id
  let QUs := cs.map (fun c => Q s c + (U sqrtN s c).1)
  (cs.enum.filter (fun ic => prunableAt (QUs.getD ic.1 0) QUs ic.1)).map
    (fun ic => ic.2)

/-- Stated from the claim wording: prune_children as the claim describes
it, filicide on exactly the QU-dominated children. -/
def claimPruneChildren (sqrtN : Nat → ℚ) (s : Tree) (id : NodeId) : Tree :=
  (claimPruneChildrenTargets sqrtN s id).foldl (fun st c => filicide st [id] c) s

mutual

/-- MCTSNode::prune_ancestors(node_to_keep): filicide every child except
the preserved one, then walk the parent vector (erasing expired entries,
recursing into live parents with self as the new preserved node).  Fueled
because the C++ recursion has no termination guarantee on cyclic graphs;
`pins` are the nodes held by locals of the enclosing C++ frames. -/
def paAux : Nat → Tree → List NodeId → NodeId → NodeId → Tree
  | 0, s, _, _, _ => s
  | f+1, s, pins, selfId, keep =>
    let pins1 := selfId :: keep :: pins
    let s1 :=
      if selfId = keep then s
      else
        (s.childrenOf selfId).foldl
          (fun st c => if c = keep then st else filicide st pins1 c) s
    paParents f s1 pins1 selfId 0

/-- The index loop over the parent vector of prune_ancestors, re-reading
the vector each step exactly like the C++ `i--` / erase idiom. -/
def paParents : Nat → Tree → List NodeId → NodeId → Nat → Tree
  | 0, s, _, _, _ => s
  | f+1, s, pins, selfId, i =>
    let ps := s.parentsOf selfId
    if h : i < ps.length then
      match ps.get ⟨i, h⟩ with
      | none =>
        paParents f (s.upd selfId (fun n => { n with parents := n.parents.eraseIdx i }))
          pins selfId i
      | some p =>
        if s.alive p then
          paParents f (paAux f s pins p selfId) pins selfId (i+1)
        else
          paParents f (s.upd selfId (fun n => { n with parents := n.parents.eraseIdx i }))
            pins selfId i
    else s

end

/-- The public MCTSNode::prune_ancestors(), i.e. prune_ancestors of self
with self preserved; the trailing cascade models the call-stack handles
being dropped on return. -/
def prune_ancestors (fuel : Nat) (s : Tree) (id : NodeId) : Tree :=
  gc (paAux fuel s [] id id) []

/-- MCTSNode::max_PUCT: scan the children, score each by
`(1 - Q(child)) + U(child)` (threading the U-purge through the state),
keep the first strict maximum. -/
def max_PUCT (sqrtN : Nat → ℚ) (s : Tree) (id : NodeId) : Option NodeId × Tree :=
  match s.node id with
  | none => (none, s)
  | some n =>
    let r := n.children.foldl
      (fun acc c =>
        let q := Q acc.2 c
        let u := U sqrtN acc.2 c
        let puct := (1 - q) + u.1
        match acc.1 with
        | none => ((some (c, puct) : Option (NodeId × ℚ)), u.2)
        | some bp => if puct > bp.2 then (some (c, puct), u.2) else (acc.1, u.2))
      ((none : Option (NodeId × ℚ)), s)
    (r.1.map (fun bp => bp.1), r.2)

/-- MCTSNode::select, fueled: while the current node is expanded, record
it on the path, pick the max-PUCT child, bump the current node's visits
and descend; the final (unexpanded) node is recorded and bumped too.  The
Bool is false when the walk was cut short (fuel, or a childless expanded
node, where the C++ would dereference null). -/
def selectAux (sqrtN : Nat → ℚ) : Nat → Tree → NodeId → List NodeId × Tree × Bool
  | 0, s, cur =>
    if s.expandedOf cur then ([], s, false)
    else ([cur], s.upd cur (fun n => { n with visits := n.visits + 1 }), true)
  | f+1, s, cur =>
    if s.expandedOf cur then
      let r := max_PUCT sqrtN s cur
      let s2 := r.2.upd cur (fun n => { n with visits := n.visits + 1 })
      match r.1 with
      | none => ([cur], s2, false)
      | some nx =>
        let rest := selectAux sqrtN f s2 nx
        (cur :: rest.1, rest.2.1, rest.2.2)
    else ([cur], s.upd cur (fun n => { n with visits := n.visits + 1 }), true)

/-- MCTSNode::backpropagate: along the path, bump wins where the playout
winner equals the node's own player, ties on a tie, else nothing. -/
def backpropagate (g : Game) (rb : BoardId) (path : List NodeId) (s : Tree) : Tree :=
  let w := g.game_winner rb
  path.foldl
    (fun st id =>
      match st.node id with
      | none => st
      | some n =>
        if w = g.player n.board then st.upd id (fun m => { m with wins := m.wins + 1 })
        else if w = g.PLAYER_TIE then st.upd id (fun m => { m with ties := m.ties + 1 })
        else st)
    s

/-- One iteration of the loop of MCTSTree::mcts: select a path, play out
from the leaf (the playout result board `rb` is arbitrary here, covering
every behaviour of the random simulate), backpropagate along the path,
expand the leaf when its state is not terminal. -/
def mctsIter (g : Game) (sqrtN : Nat → ℚ) (fuel : Nat) (s : Tree) (rootId : NodeId)
    (rb : BoardId) : Tree :=
  let r := selectAux sqrtN fuel s rootId
  match r.1.getLast? with
  | none => r.2.1
  | some leaf =>
    let s2 := backpropagate g rb r.1 r.2.1
    if g.game_winner (s2.boardOf leaf) = g.PLAYER_NONE then expand g s2 leaf else s2

/-- States (paired with the root node id) reachable through MCTSTree::mcts
from the empty tree: the initial get_node of the root, then any number of
search iterations with arbitrary playout outcomes and fuel. -/
inductive ReachMCTS (g : Game) (sqrtN : Nat → ℚ) : Tree → NodeId → Prop where
  | init (b : BoardId) :
      ReachMCTS g sqrtN (get_node g emptyTree b none).2 (get_node g emptyTree b none).1
  | step {s : Tree} {r : NodeId} (h : ReachMCTS g sqrtN s r) (fuel : Nat) (rb : BoardId) :
      ReachMCTS g sqrtN (mctsIter g sqrtN fuel s r rb) r

/-- States reachable through the public operations get_node, expand, U
(whose state effect is the lazy parent purge) and prune_ancestors, with
every temporary caller handle dropped (trailing cascade) after each
operation. -/
inductive ReachT (g : Game) : Tree → Prop where
  | init : ReachT g emptyTree
  | gn {s : Tree} (h : ReachT g s) (b : BoardId) (par : Option NodeId)
      (hp : par = none ∨ ∃ p, par = some p ∧ s.alive p) :
      ReachT g (gc (get_node g s b par).2 [])
  | ex {s : Tree} (h : ReachT g s) (id : NodeId) : ReachT g (gc (expand g s id) [])
  | uop {s : Tree} (h : ReachT g s) (id : NodeId) : ReachT g (gc (purgeParents s id) [])
  | pa {s : Tree} (h : ReachT g s) (fuel : Nat) (id : NodeId) :
      ReachT g (prune_ancestors fuel s id)

/-- A trivial game for concrete instances: every board is terminal with
no legal moves. -/
def gTriv : Game :=
  { get_valid_moves := fun _ => [], move := fun b _ => b,
    game_winner := fun _ => 0, player := fun _ => 1,
    PLAYER_NONE := 0, PLAYER_TIE := -1 }

/-- Concrete tree for the prune claims: root 0 (10 visits) with children
1 (3 visits, leaf) and 2 (5 visits, expanded over grandchild 3). -/
def sC1 : Tree :=
  { heap := [
      (0, { board := 0, visits := 10, wins := 0, ties := 0, expanded := true,
            moves := [0, 1], children := [1, 2], parents := [none] }),
      (1, { board := 1, visits := 3, wins := 0, ties := 0, expanded := false,
            moves := [], children := [], parents := [some 0] }),
      (2, { board := 2, visits := 5, wins := 2, ties := 0, expanded := true,
            moves := [0], children := [3], parents := [some 0] }),
      (3, { board := 3, visits := 1, wins := 0, ties := 0, expanded := false,
            moves := [], children := [], parents := [some 2] })],
    transposition_table := [(0, 0), (1, 1), (2, 2), (3, 3)],
    roots := [0],
    total_lookups := 0, total_hits := 0, total_fillicides := 0, nextId := 4 }

/-- Concrete tree for the termination claim: two childless roots built by
two rootless get_node calls (every caller handle dropped). -/
def sC2 : Tree :=
  gc (get_node gTriv (gc (get_node gTriv emptyTree 0 none).2 []) 1 none).2 []

/-- Concrete tree for the prune_ancestors claim: root 0 with children
A = 1 and A2 = 2; A with children B = 3 and B2 = 4; A2 and B2 each own one
further leaf (5 and 6). -/
def sC6 : Tree :=
  { heap := [
      (0, { board := 0, visits := 9, wins := 0, ties := 0, expanded := true,
            moves := [0, 1], children := [1, 2], parents := [none] }),
      (1, { board := 1, visits := 6, wins := 1, ties := 0, expanded := true,
            moves := [0, 1], children := [3, 4], parents := [some 0] }),
      (2, { board := 2, visits := 2, wins := 0, ties := 0, expanded := true,
            moves := [0], children := [5], parents := [some 0] }),
      (3, { board := 3, visits := 4, wins := 1, ties := 1, expanded := false,
            moves := [0], children := [], parents := [some 1] }),
      (4, { board := 4, visits := 1, wins := 0, ties := 0, expanded := true,
            moves := [0], children := [6], parents := [some 1] }),
      (5, { board := 5, visits := 1, wins := 0, ties := 0, expanded := false,
            moves := [], children := [], parents := [some 2] }),
      (6, { board := 6, visits := 0, wins := 0, ties := 0, expanded := false,
            moves := [], children := [], parents := [some 4] })],
    transposition_table := [(0, 0), (1, 1), (2, 2), (3, 3), (4, 4), (5, 5), (6, 6)],
    roots := [0],
    total_lookups := 0, total_hits := 0, total_fillicides := 0, nextId := 7 }

/-- Concrete tree for the prune_children claim: parent 0 (1 visit) with
children 1 (1 visit, expanded over leaf 3) and 2 (0 visits, leaf); all
parent visit sums are the perfect square 1. -/
def sC7 : Tree :=
  { heap := [
      (0, { board := 0, visits := 1, wins := 0, ties := 0, expanded := true,
            moves := [0, 1], children := [1, 2], parents := [none] }),
      (1, { board := 1, visits := 1, wins := 0, ties := 0, expanded := true,
            moves := [0], children := [3], parents := [some 0] }),
      (2, { board := 2, visits := 0, wins := 0, ties := 0, expanded := false,
            moves := [0], children := [], parents := [some 0] }),
      (3, { board := 3, visits := 0, wins := 0, ties := 0, expanded := false,
            moves := [], children := [], parents := [some 1] })],
    transposition_table := [(0, 0), (1, 1), (2, 2), (3, 3)],
    roots := [0],
    total_lookups := 0, total_hits := 0, total_fillicides := 0, nextId := 4 }

/-- Concrete tree for the terminal-expand claim: one root node for the
moveless board 7. -/
def sC3 : Tree := (get_node gTriv emptyTree 7 none).2

/-- The per-node statistics invariant of the search loop: the win/tie
total never exceeds the visit count, an unexpanded node has no children
and an expanded one has one child slot per legal move. -/
def SNodeInv (n : Node) : Prop :=
  n.wins + n.ties ≤ n.visits ∧ (n.expanded = false → n.children = []) ∧
  (n.expanded = true → n.children.length = n.moves.length)

/-- The statistics invariant over every live node of a tree. -/
def StatInv (s : Tree) : Prop := ∀ id n, s.node id = some n → SNodeInv n

/-- The node as seen ignoring the parent vector (the only field the
U-purge mutates), with the visit counter shifted by `k`. -/
def nview (k : Nat) (n : Node) : Node :=
  { n with parents := [], visits := n.visits + k }

/-- State relation produced by a selection walk along `path`: every
node's statistics are unchanged except for one visit increment per
occurrence on the path, and no node is created or destroyed (parent
vectors aside). -/
def SelRel (path : List NodeId) (s s2 : Tree) : Prop :=
  ∀ id, (s2.node id).map (nview 0) = (s.node id).map (nview (path.count id))

def heapKeys (s : Tree) : List NodeId := s.heap.map (fun kv => kv.1)

/-- Freshness bound: every heap key is below the allocation counter, so a
newly created node can never shadow a live one. -/
def KeysBound (s : Tree) : Prop := ∀ k ∈ heapKeys s, k < s.nextId

/-- Structural well-formedness maintained by every public operation: id
freshness bounds for heap keys and roots, a duplicate-free root set, and
every child edge backed by a parent back reference in a live child (the
edge/backref invariant: children.push_back always follows a get_node
that recorded the parent). -/
structure RootInv (s : Tree) : Prop where
  keysBound : ∀ k ∈ heapKeys s, k < s.nextId
  rootsBound : ∀ r ∈ s.roots, r < s.nextId
  rootsNodup : s.roots.Nodup
  edgeBack : ∀ kv ∈ s.heap, ∀ c ∈ (kv : NodeId × Node).2.children,
    ∃ nc, s.node c = some nc ∧ (some kv.1) ∈ nc.parents

/-- Every live node is supported by an owner: it is a root or sits in the
child list of a live node.  This is the fixpoint property the reclamation
cascade establishes. -/
def OwnSupported (s : Tree) : Prop :=
  ∀ id, s.alive id = true → id ∈ s.roots ∨ ownedBy s id = true

/-- A node the reclamation cascade can never destroy: a root, or a child
of a live root. -/
def Protected (s : Tree) (c : NodeId) : Prop :=
  c ∈ s.roots ∨ ∃ r nr, r ∈ s.roots ∧ s.node r = some nr ∧ c ∈ nr.children

/-- The filicide targets of one prune_children call, read off the code
under parent-stable conditions: child i is targeted when its Q + U is
strictly below the upfront-recorded bare Q of some other child. -/
def pcTargets (sqrtN : Nat → ℚ) (s : Tree) (id : NodeId) : List NodeId :=
  match s.node id with
  | none => []
  | some n =>
    (n.children.enum.filter
      (fun ic => prunableAt (Q s ic.2 + (U sqrtN s ic.2).1) (n.children.map (fun c => Q s c)) ic.1)).map
      (fun ic => ic.2)

theorem hfind_cons (k : NodeId) (n : Node) (h : List (NodeId × Node)) (id : NodeId) :
    hfind ((k, n) :: h) id = if k = id then some n else hfind h id := by
  simp only [hfind, List.find?]
  cases hb : ((k, n).1 == id) with
  | true =>
    have : k = id := by simpa using hb
    simp [this]
  | false =>
    have : ¬ k = id := by simpa using hb
    simp [hfind, this]

theorem hset_cons (a : NodeId) (b : Node) (t : List (NodeId × Node)) (id : NodeId)
    (f : Node → Node) :
    hset ((a, b) :: t) id f =
      (if a = id then (a, f b) else (a, b)) :: hset t id f := by
  simp [hset]

theorem hfind_hset_self (h : List (NodeId × Node)) (id : NodeId) (f : Node → Node) :
    hfind (hset h id f) id = (hfind h id).map f := by
  induction h with
  | nil => rfl
  | cons kv t ih =>
    obtain ⟨a, b⟩ := kv
    rw [hset_cons]
    by_cases hk : a = id
    · subst hk
      rw [if_pos rfl, hfind_cons, hfind_cons, if_pos rfl, if_pos rfl]
      rfl
    · rw [if_neg hk, hfind_cons, hfind_cons, if_neg hk, if_neg hk]
      exact ih

theorem hfind_hset_other (h : List (NodeId × Node)) (id c : NodeId) (f : Node → Node)
    (hne : c ≠ id) : hfind (hset h id f) c = hfind h c := by
  induction h with
  | nil => rfl
  | cons kv t ih =>
    obtain ⟨a, b⟩ := kv
    rw [hset_cons]
    by_cases hk : a = id
    · subst hk
      have hac : ¬ a = c := fun hh => hne hh.symm
      rw [if_pos rfl, hfind_cons, hfind_cons, if_neg hac, if_neg hac]
      exact ih
    · by_cases hc : a = c
      · rw [if_neg hk, hfind_cons, hfind_cons, if_pos hc, if_pos hc]
      · rw [if_neg hk, hfind_cons, hfind_cons, if_neg hc, if_neg hc]
        exact ih

theorem node_upd_self (s : Tree) (id : NodeId) (f : Node → Node) :
    (s.upd id f).node id = (s.node id).map f :=
  hfind_hset_self s.heap id f

theorem node_upd_other (s : Tree) (id c : NodeId) (f : Node → Node) (h : c ≠ id) :
    (s.upd id f).node c = s.node c :=
  hfind_hset_other s.heap id c f h

theorem node_upd (s : Tree) (id c : NodeId) (f : Node → Node) :
    (s.upd id f).node c = if c = id then (s.node c).map f else s.node c := by
  by_cases h : c = id
  · subst h; simp [node_upd_self]
  · simp [node_upd_other s id c f h, h]

/-- C10: for every node whose statistics satisfy wins + ties ≤ visits,
the Q score is nonnegative and strictly below one, hence the selection
term 1 - Q used by max_PUCT is strictly positive. -/
theorem C10_Q_range (s : Tree) (id : NodeId) (n : Node) (hn : s.node id = some n)
    (hwt : n.wins + n.ties ≤ n.visits) :
    0 ≤ Q s id ∧ Q s id < 1 ∧ 0 < 1 - Q s id := by
  have hq : Q s id = ((n.wins : ℚ) + TIE_REWARD * (n.ties : ℚ)) / (1 + (n.visits : ℚ)) := by
    unfold Q; rw [hn]
  have hden : (0:ℚ) < 1 + (n.visits : ℚ) := by positivity
  have hnum0 : (0:ℚ) ≤ (n.wins : ℚ) + TIE_REWARD * (n.ties : ℚ) := by
    rw [TIE_REWARD]; positivity
  have hcast : ((n.wins : ℚ)) + ((n.ties : ℚ)) ≤ ((n.visits : ℚ)) := by exact_mod_cast hwt
  have htn : (0:ℚ) ≤ (n.ties : ℚ) := by positivity
  have hlt : Q s id < 1 := by
    rw [hq, div_lt_one hden, TIE_REWARD]
    linarith
  exact ⟨by rw [hq]; exact div_nonneg hnum0 hden.le, hlt, by linarith⟩

/-- Witness for C10 at a concrete node of the concrete tree sC7. -/
theorem C10_witness : 0 ≤ Q sC7 2 ∧ Q sC7 2 < 1 ∧ 0 < 1 - Q sC7 2 :=
  C10_Q_range sC7 2
    { board := 2, visits := 0, wins := 0, ties := 0, expanded := false,
      moves := [0], children := [], parents := [some 0] }
    (by decide) (by decide)

/-- C9 counterexample: the freshly constructed tree is reachable and has
total_lookups = 0, so the denominator of transposition_hitrate is zero
before any lookup; the +1 smoothing protects only Q and U. -/
theorem C9_counterexample :
    ReachT gTriv emptyTree ∧ emptyTree.total_lookups = 0 ∧
      ((emptyTree.total_lookups : ℚ)) = 0 :=
  ⟨ReachT.init, by decide, by norm_num [emptyTree]⟩

/-- C9 amended: the denominators of Q and U are the strictly positive
1 + visits for every counter value, and the denominator of
transposition_hitrate is nonzero once at least one lookup has happened. -/
theorem C9_amended (s : Tree) (id : NodeId) (h : 0 < s.total_lookups) :
    (1 + ((s.visitsOf id : ℚ))) ≠ 0 ∧ ((s.total_lookups : ℚ)) ≠ 0 := by
  refine ⟨?_, ?_⟩
  · have : (0:ℚ) < 1 + ((s.visitsOf id : ℚ)) := by positivity
    exact this.ne'
  · exact_mod_cast h.ne'

/-- Witness for C9 amended at the concrete two-root tree. -/
theorem C9_witness :
    0 < sC2.total_lookups ∧
      ((1 + ((sC2.visitsOf 0 : ℚ))) ≠ 0 ∧ ((sC2.total_lookups : ℚ)) ≠ 0) :=
  ⟨by decide, C9_amended sC2 0 (by decide)⟩

/-- C2: concrete failing input for prune's termination.  The two-root
tree is reachable through public get_node calls; prune with max_size 1
dequeues both childless roots without shrinking the table and then hits
the empty frontier with the table still oversized, which in the C++ is a
`front()` on an empty queue. -/
theorem C2_empty_frontier : prune sC2 1 = none ∧ ReachT gTriv sC2 :=
  ⟨by decide, ReachT.gn (ReachT.gn ReachT.init 0 none (Or.inl rfl)) 1 none (Or.inl rfl)⟩

/-- C1 counterexample: on the concrete tree sC1 the per-node filicide
target list of the code differs from the claimed one, the whole prune
call differs from the claimed prune, and the most-visited child (node 2)
is itself filicided instead of being kept. -/
theorem C1_counterexample :
    codePruneTargets sC1 0 ≠ claimPruneTargets sC1 0 ∧
      prune sC1 3 ≠ claimPrune sC1 3 ∧
      mostVisitedChild sC1 0 = some 2 ∧
      (prune sC1 3).map (fun t => t.expandedOf 2) = some false := by decide

/-- C6 counterexample: after B.prune_ancestors() on the concrete graph
sC6 (root 0, A = 1, A2 = 2, B = 3, B2 = 4), the root does not keep only
the child A, nor does A keep only the child B. -/
theorem C6_counterexample :
    ¬((prune_ancestors 20 sC6 3).childrenOf 0 = [1] ∧
      (prune_ancestors 20 sC6 3).childrenOf 1 = [3]) := by decide

/-- C6 amended: B.prune_ancestors() filicides the siblings A2 and B2,
which only clears their own child lists (their subtrees 5 and 6 are
reclaimed, two destructor runs) and resets their expanded flags, while
A2 and B2 themselves remain children of root and A respectively. -/
theorem C6_amended :
    (prune_ancestors 20 sC6 3).childrenOf 0 = [1, 2] ∧
      (prune_ancestors 20 sC6 3).childrenOf 1 = [3, 4] ∧
      (prune_ancestors 20 sC6 3).expandedOf 2 = false ∧
      (prune_ancestors 20 sC6 3).expandedOf 4 = false ∧
      (prune_ancestors 20 sC6 3).childrenOf 2 = [] ∧
      (prune_ancestors 20 sC6 3).childrenOf 4 = [] ∧
      (prune_ancestors 20 sC6 3).alive 5 = false ∧
      (prune_ancestors 20 sC6 3).alive 6 = false ∧
      transposition_size (prune_ancestors 20 sC6 3) = 5 ∧
      purges (prune_ancestors 20 sC6 3) = 2 := by decide

theorem U_sC7_1_state : (U ratSqrt sC7 1).2 = sC7 := by decide

theorem U_sC7_2_state : (U ratSqrt sC7 2).2 = sC7 := by decide

theorem ratSqrt_one : ratSqrt 1 = 1 := by
  have h : ((List.range (1 + 1)).foldl (fun acc k => if k * k ≤ 1 then k else acc) 0) = 1 := by
    decide
  rw [ratSqrt, h]
  norm_num

theorem U_sC7_1_val : (U ratSqrt sC7 1).1 = 18 / 25 := by
  have h : (U ratSqrt sC7 1).1 =
      Cexp * ratSqrt (parentVisitSum (purgeParents sC7 1) ((purgeParents sC7 1).parentsOf 1)) /
        (1 + (((purgeParents sC7 1).visitsOf 1 : ℕ) : ℚ)) := rfl
  have e1 : parentVisitSum (purgeParents sC7 1) ((purgeParents sC7 1).parentsOf 1) = 1 := by
    decide
  have e2 : (purgeParents sC7 1).visitsOf 1 = 1 := by decide
  rw [h, e1, e2, ratSqrt_one, Cexp]
  norm_num

theorem U_sC7_2_val : (U ratSqrt sC7 2).1 = 36 / 25 := by
  have h : (U ratSqrt sC7 2).1 =
      Cexp * ratSqrt (parentVisitSum (purgeParents sC7 2) ((purgeParents sC7 2).parentsOf 2)) /
        (1 + (((purgeParents sC7 2).visitsOf 2 : ℕ) : ℚ)) := rfl
  have e1 : parentVisitSum (purgeParents sC7 2) ((purgeParents sC7 2).parentsOf 2) = 1 := by
    decide
  have e2 : (purgeParents sC7 2).visitsOf 2 = 0 := by decide
  rw [h, e1, e2, ratSqrt_one, Cexp]
  norm_num

theorem Q_sC7_1 : Q sC7 1 = 0 := by
  have h : Q sC7 1 = (((0:ℕ) : ℚ) + TIE_REWARD * ((0:ℕ) : ℚ)) / (1 + ((1:ℕ) : ℚ)) := rfl
  rw [h, TIE_REWARD]
  norm_num

theorem Q_sC7_2 : Q sC7 2 = 0 := by
  have h : Q sC7 2 = (((0:ℕ) : ℚ) + TIE_REWARD * ((0:ℕ) : ℚ)) / (1 + ((0:ℕ) : ℚ)) := rfl
  rw [h, TIE_REWARD]
  norm_num

theorem QU_sC7_1 : Q sC7 1 + (U ratSqrt sC7 1).1 = 18 / 25 := by
  rw [Q_sC7_1, U_sC7_1_val]; norm_num

theorem QU_sC7_2 : Q sC7 2 + (U ratSqrt sC7 2).1 = 36 / 25 := by
  rw [Q_sC7_2, U_sC7_2_val]; norm_num

theorem claim_targets_sC7 : claimPruneChildrenTargets ratSqrt sC7 0 = [1] := by
  have hcs : sC7.childrenOf 0 = [1, 2] := by decide
  rw [claimPruneChildrenTargets, hcs]
  simp only [List.map_cons, List.map_nil, QU_sC7_1, QU_sC7_2]
  norm_num [prunableAt, List.enum, List.enumFrom, List.take, List.drop, List.any,
    List.getD, List.filter]

theorem prune_children_sC7 : prune_children ratSqrt sC7 0 = sC7 := by
  have hn0 : sC7.node 0 = some
      { board := 0, visits := 1, wins := 0, ties := 0, expanded := true,
        moves := [0, 1], children := [1, 2], parents := [none] } := by decide
  rw [prune_children, hn0]
  simp only [List.map_cons, List.map_nil, List.enum, List.enumFrom, List.foldl,
    Q_sC7_1, Q_sC7_2, Nat.zero_add]
  have hp1 : prunableAt (0 + (U ratSqrt sC7 1).1) [0, 0] 0 = false := by
    rw [show (0:ℚ) + (U ratSqrt sC7 1).1 = (U ratSqrt sC7 1).1 from zero_add _,
      U_sC7_1_val]
    norm_num [prunableAt, List.take, List.drop, List.any]
  rw [hp1]
  simp only [Bool.false_eq_true, if_false, U_sC7_1_state, Q_sC7_2]
  have hp2 : prunableAt (0 + (U ratSqrt sC7 2).1) [0, 0] 1 = false := by
    rw [show (0:ℚ) + (U ratSqrt sC7 2).1 = (U ratSqrt sC7 2).1 from zero_add _,
      U_sC7_2_val]
    norm_num [prunableAt, List.take, List.drop, List.any]
  rw [hp2]
  simp only [Bool.false_eq_true, if_false, U_sC7_2_state]

/-- C7 counterexample: on the concrete tree sC7, prune_children changes
nothing, while the claimed QU-dominance rule filicides child 1 (whose
Q+U is strictly below the Q+U of child 2): the code compares a child's
Q+U against the bare Q of the others, not against their Q+U. -/
theorem C7_counterexample :
    prune_children ratSqrt sC7 0 ≠ claimPruneChildren ratSqrt sC7 0 ∧
      prune_children ratSqrt sC7 0 = sC7 ∧
      claimPruneChildrenTargets ratSqrt sC7 0 = [1] := by
  have hc : claimPruneChildren ratSqrt sC7 0 =
      (claimPruneChildrenTargets ratSqrt sC7 0).foldl (fun st c => filicide st [0] c) sC7 := rfl
  refine ⟨?_, prune_children_sC7, claim_targets_sC7⟩
  rw [prune_children_sC7, hc, claim_targets_sC7]
  intro hcontra
  have := congrArg Tree.total_fillicides hcontra
  rw [show ([1] : List NodeId).foldl (fun st c => filicide st [0] c) sC7 =
      filicide sC7 [0] 1 from rfl] at this
  have hfil : (filicide sC7 [0] 1).total_fillicides = 1 := by decide
  rw [hfil] at this
  exact absurd this (by decide)

/-- C3 counterexample: the root of sC3 is terminal (empty move list);
expand leaves its expanded flag false, not true as claimed (with zero
children, as claimed). -/
theorem C3_counterexample :
    (sC3.node 0).map (fun n => n.moves) = some [] ∧
      (expand gTriv sC3 0).expandedOf 0 = false ∧
      (expand gTriv sC3 0).childrenOf 0 = [] := by decide

/-- C3 amended: expand on a node with an empty move list is exactly the
unconditional visit increment (expanded stays false, children stay
empty), and a repeated call is the same increment again. -/
theorem C3_amended (g : Game) (s : Tree) (id : NodeId) (n : Node)
    (hn : s.node id = some n) (hm : n.moves = []) :
    expand g s id = s.upd id (fun m => { m with visits := m.visits + 1 }) ∧
    expand g (expand g s id) id =
      (s.upd id (fun m => { m with visits := m.visits + 1 })).upd id
        (fun m => { m with visits := m.visits + 1 }) := by
  have step : ∀ s2 : Tree, ∀ n2 : Node, s2.node id = some n2 → n2.moves = [] →
      expand g s2 id = s2.upd id (fun m => { m with visits := m.visits + 1 }) := by
    intro s2 n2 hn2 hm2
    simp only [expand, hn2, hm2, List.foldl_nil, ite_self]
  have h1 := step s n hn hm
  refine ⟨h1, ?_⟩
  rw [h1]
  exact step _ { n with visits := n.visits + 1 }
    (by rw [node_upd_self, hn]; rfl) hm

/-- Witness for C3 amended at the concrete terminal root of sC3. -/
theorem C3_witness :
    expand gTriv sC3 0 = sC3.upd 0 (fun m => { m with visits := m.visits + 1 }) ∧
    expand gTriv (expand gTriv sC3 0) 0 =
      (sC3.upd 0 (fun m => { m with visits := m.visits + 1 })).upd 0
        (fun m => { m with visits := m.visits + 1 }) :=
  C3_amended gTriv sC3 0
    { board := 7, visits := 0, wins := 0, ties := 0, expanded := false,
      moves := [], children := [], parents := [none] }
    (by decide) rfl

theorem tfind_cons (b : BoardId) (id : NodeId) (t : List (BoardId × NodeId)) (b2 : BoardId) :
    tfind ((b, id) :: t) b2 = if b = b2 then some id else tfind t b2 := by
  simp only [tfind, List.find?]
  cases hb : ((b, id).1 == b2) with
  | true =>
    have : b = b2 := by simpa using hb
    simp [this]
  | false =>
    have : ¬ b = b2 := by simpa using hb
    simp [tfind, this]

theorem alive_upd (s : Tree) (x c : NodeId) (f : Node → Node) :
    (s.upd x f).alive c = s.alive c := by
  simp only [Tree.alive, Tree.node]
  by_cases h : c = x
  · rw [h, show hfind (s.upd x f).heap x = (hfind s.heap x).map f from hfind_hset_self _ _ _]
    cases hfind s.heap x <;> rfl
  · rw [show hfind (s.upd x f).heap c = hfind s.heap c from hfind_hset_other _ _ _ _ h]

/-- The hit path of get_node with no parent supplied: same node back,
lookup and hit counters bumped, nothing else changed. -/
theorem get_node_hit (g : Game) (s2 : Tree) (b : BoardId) (id : NodeId)
    (ht : tfind s2.transposition_table b = some id) (ha : s2.alive id = true) :
    get_node g s2 b none =
      (id, { s2 with total_lookups := s2.total_lookups + 1,
                     total_hits := s2.total_hits + 1 }) := by
  have ht2 : tfind ({ s2 with total_lookups := s2.total_lookups + 1 } : Tree).transposition_table b
      = some id := ht
  have ha2 : ({ s2 with total_lookups := s2.total_lookups + 1 } : Tree).alive id = true := ha
  simp only [get_node, ht2, ha2, if_true, ne_eq, not_true_eq_false, and_false, if_false]

/-- After any get_node for board b, the table maps b to the returned node
and that node is alive. -/
theorem get_node_post (g : Game) (s : Tree) (b : BoardId) (par : Option NodeId) :
    tfind (get_node g s b par).2.transposition_table b = some (get_node g s b par).1 ∧
    (get_node g s b par).2.alive (get_node g s b par).1 = true := by
  have hcreate : ∀ s2 : Tree,
      tfind (createNode g s2 b par).2.transposition_table b = some (createNode g s2 b par).1 ∧
      (createNode g s2 b par).2.alive (createNode g s2 b par).1 = true := by
    intro s2
    by_cases hp : par = none <;>
      simp [createNode, hp, tfind_cons, Tree.alive, Tree.node, hfind_cons]
  cases ht : tfind s.transposition_table b with
  | none =>
    have heq : get_node g s b par =
        createNode g { s with total_lookups := s.total_lookups + 1 } b par := by
      simp only [get_node]
      rw [show tfind ({ s with total_lookups := s.total_lookups + 1 } : Tree).transposition_table b
        = none from ht]
    rw [heq]
    exact hcreate _
  | some id =>
    by_cases ha : s.alive id = true
    · cases par with
      | none =>
        rw [get_node_hit g s b id ht ha]
        exact ⟨ht, ha⟩
      | some p =>
        have hsh : (get_node g s b (some p)).1 = id ∧
            (get_node g s b (some p)).2.transposition_table = s.transposition_table ∧
            (get_node g s b (some p)).2.alive id = true := by
          simp only [get_node,
            show tfind ({ s with total_lookups := s.total_lookups + 1 } : Tree).transposition_table b
              = some id from ht]
          rw [if_pos (show ({ s with total_lookups := s.total_lookups + 1 } : Tree).alive id = true
            from ha)]
          by_cases hz : (({ s with total_lookups := s.total_lookups + 1 } : Tree).parentsOf id).length = 0 ∧
              (some p : Option NodeId) ≠ none
          · rw [if_pos hz]
            refine ⟨rfl, rfl, ?_⟩
            show (({ s with roots := s.roots.erase id, total_lookups := s.total_lookups + 1 } : Tree).upd id (fun n => { n with parents := n.parents ++ [some p] })).alive id = true
            rw [alive_upd]
            exact ha
          · rw [if_neg hz]
            refine ⟨rfl, rfl, ?_⟩
            show (({ s with total_lookups := s.total_lookups + 1 } : Tree).upd id
              (fun n => { n with parents := n.parents ++ [some p] })).alive id = true
            rw [alive_upd]
            exact ha
        obtain ⟨h1, h2, h3⟩ := hsh
        rw [h1, h2]
        exact ⟨ht, h3⟩
    · have hna : ¬ (({ s with total_lookups := s.total_lookups + 1 } : Tree).alive id = true) := ha
      have heq : get_node g s b par =
          createNode g { s with transposition_table := eraseKey s.transposition_table b,
                                total_lookups := s.total_lookups + 1 + 1 } b par := by
        simp only [get_node,
          show tfind ({ s with total_lookups := s.total_lookups + 1 } : Tree).transposition_table b
            = some id from ht]
        rw [if_neg hna]
      rw [heq]
      exact hcreate _

/-- C8: calling get_node twice with the same board and no parent returns
the identical node both times; the second call bumps the hit counter (and
the lookup counter) and leaves the root set and the node's parent vector
untouched. -/
theorem C8_get_node_twice (g : Game) (s : Tree) (b : BoardId) :
    (get_node g (get_node g s b none).2 b none).1 = (get_node g s b none).1 ∧
    (get_node g (get_node g s b none).2 b none).2.total_hits =
      (get_node g s b none).2.total_hits + 1 ∧
    (get_node g (get_node g s b none).2 b none).2.roots = (get_node g s b none).2.roots ∧
    (get_node g (get_node g s b none).2 b none).2.parentsOf (get_node g s b none).1 =
      (get_node g s b none).2.parentsOf (get_node g s b none).1 := by
  obtain ⟨ht, ha⟩ := get_node_post g s b none
  rw [get_node_hit g (get_node g s b none).2 b (get_node g s b none).1 ht ha]
  exact ⟨rfl, rfl, rfl, rfl⟩

theorem hfind_filter_ne (h : List (NodeId × Node)) (d c : NodeId) (hne : c ≠ d) :
    hfind (h.filter (fun kv => !(kv.1 == d))) c = hfind h c := by
  induction h with
  | nil => rfl
  | cons kv t ih =>
    obtain ⟨a, b⟩ := kv
    rw [List.filter_cons]
    by_cases hd : a = d
    · have hac : ¬ a = c := fun hh => hne (hh ▸ hd)
      rw [if_neg (by simp [hd]), ih, hfind_cons, if_neg hac]
    · rw [if_pos (by simp [hd]), hfind_cons, hfind_cons]
      by_cases hac : a = c
      · rw [if_pos hac, if_pos hac]
      · rw [if_neg hac, if_neg hac]
        exact ih

theorem node_destroy_other (s : Tree) (d c : NodeId) (h : c ≠ d) :
    (destroyNode s d).node c = s.node c := by
  cases hn : s.node d with
  | none => simp [destroyNode, hn]
  | some n =>
    rw [show destroyNode s d = { s with heap := s.heap.filter (fun kv => !(kv.1 == d)), transposition_table := eraseKey s.transposition_table n.board, total_fillicides := s.total_fillicides + 1 } from by simp [destroyNode, hn]]
    exact hfind_filter_ne _ _ _ h

theorem roots_destroy (s : Tree) (d : NodeId) : (destroyNode s d).roots = s.roots := by
  cases hn : s.node d with
  | none => simp [destroyNode, hn]
  | some n => simp [destroyNode, hn]

theorem hfind_some_mem (h : List (NodeId × Node)) (c : NodeId) (n : Node)
    (hf : hfind h c = some n) : (c, n) ∈ h := by
  obtain ⟨kv, hkv, hv⟩ := Option.map_eq_some'.mp hf
  have hp := List.find?_some hkv
  have hk : kv.1 = c := by simpa using hp
  have := List.mem_of_find?_eq_some hkv
  obtain ⟨a, b⟩ := kv
  simp only at hk hv
  rw [hk, hv] at this
  exact this

theorem ownedBy_of_child (s : Tree) (r c : NodeId) (nr : Node)
    (hr : s.node r = some nr) (hc : c ∈ nr.children) : ownedBy s c = true := by
  rw [ownedBy, List.any_eq_true]
  exact ⟨(r, nr), hfind_some_mem _ _ _ hr, by simpa using hc⟩

theorem collectible_spec (s : Tree) (pins : List NodeId) (d : NodeId)
    (h : collectible s pins d = true) : d ∉ s.roots ∧ ownedBy s d = false := by
  simp only [collectible, Bool.and_eq_true, Bool.not_eq_true'] at h
  obtain ⟨⟨h1, _⟩, h3⟩ := h
  refine ⟨fun hmem => ?_, h3⟩
  rw [List.contains_eq_any_beq] at h1
  have : s.roots.any (fun x => d == x) = true := List.any_eq_true.mpr ⟨d, hmem, by simp⟩
  rw [this] at h1
  cases h1

theorem findCollectible_some (s : Tree) (pins : List NodeId) (d : NodeId)
    (h : findCollectible s pins = some d) : collectible s pins d = true := by
  obtain ⟨kv, hkv, hv⟩ := Option.map_eq_some'.mp h
  have hp := List.find?_some hkv
  rw [hv] at hp
  exact hp

theorem protected_ne_collectible (s : Tree) (pins : List NodeId) (d c : NodeId)
    (hcol : collectible s pins d = true) (hc : Protected s c) : c ≠ d := by
  obtain ⟨hdr, hdo⟩ := collectible_spec s pins d hcol
  intro hcd
  subst hcd
  cases hc with
  | inl hr => exact hdr hr
  | inr ho =>
    obtain ⟨r, nr, _, hr, hcc⟩ := ho
    rw [ownedBy_of_child s r c nr hr hcc] at hdo
    cases hdo

theorem protected_destroy (s : Tree) (pins : List NodeId) (d c : NodeId)
    (hcol : collectible s pins d = true) (hc : Protected s c) :
    Protected (destroyNode s d) c ∧ (destroyNode s d).node c = s.node c := by
  obtain ⟨hdr, _⟩ := collectible_spec s pins d hcol
  have hcd := protected_ne_collectible s pins d c hcol hc
  refine ⟨?_, node_destroy_other s d c hcd⟩
  cases hc with
  | inl hr => exact Or.inl (by rw [roots_destroy]; exact hr)
  | inr ho =>
    obtain ⟨r, nr, hrr, hr, hcc⟩ := ho
    have hrd : r ≠ d := fun hh => hdr (hh ▸ hrr)
    exact Or.inr ⟨r, nr, by rw [roots_destroy]; exact hrr,
      by rw [node_destroy_other s d r hrd]; exact hr, hcc⟩

theorem gcAux_protected (f : Nat) : ∀ (s : Tree) (pins : List NodeId) (c : NodeId),
    Protected s c →
    (gcAux f s pins).node c = s.node c ∧ (gcAux f s pins).roots = s.roots ∧
      Protected (gcAux f s pins) c := by
  induction f with
  | zero => intro s pins c hc; exact ⟨rfl, rfl, hc⟩
  | succ f ih =>
    intro s pins c hc
    cases hfc : findCollectible s pins with
    | none => rw [show gcAux (f+1) s pins = s from by simp [gcAux, hfc]]; exact ⟨rfl, rfl, hc⟩
    | some d =>
      rw [show gcAux (f+1) s pins = gcAux f (destroyNode s d) pins from by simp [gcAux, hfc]]
      have hcol := findCollectible_some s pins d hfc
      obtain ⟨hp2, hn2⟩ := protected_destroy s pins d c hcol hc
      obtain ⟨ihn, ihr, ihp⟩ := ih (destroyNode s d) pins c hp2
      exact ⟨by rw [ihn, hn2], by rw [ihr, roots_destroy], ihp⟩

theorem roots_gcAux (f : Nat) : ∀ (s : Tree) (pins : List NodeId),
    (gcAux f s pins).roots = s.roots := by
  induction f with
  | zero => intro s pins; rfl
  | succ f ih =>
    intro s pins
    cases hfc : findCollectible s pins with
    | none => simp [gcAux, hfc]
    | some d =>
      rw [show gcAux (f+1) s pins = gcAux f (destroyNode s d) pins from by simp [gcAux, hfc]]
      rw [ih, roots_destroy]

theorem roots_filicide (st : Tree) (pins : List NodeId) (x : NodeId) :
    (filicide st pins x).roots = st.roots := by
  cases hn : st.node x with
  | none => simp [filicide, hn]
  | some nx =>
    by_cases he : nx.expanded = false
    · simp [filicide, hn, he]
    · rw [show filicide st pins x =
        gc (st.upd x (fun m => { m with children := [], expanded := false })) (x :: pins) from
          by simp [filicide, hn, he]]
      rw [gc, roots_gcAux]
      rfl

/-- Stability of a rooted node q and of its children under filicide of an
x other than q: filicide touches only x and reclaims only unowned nodes,
so q keeps its value and q's children other than x keep theirs. -/
theorem filicide_stable (st : Tree) (pins : List NodeId) (x q : NodeId) (nqv : Node)
    (hq : st.node q = some nqv) (hqroot : q ∈ st.roots) (hx : x ≠ q) :
    (filicide st pins x).node q = some nqv ∧
    (∀ c, c ∈ nqv.children → c ≠ x → (filicide st pins x).node c = st.node c) := by
  cases hn : st.node x with
  | none => rw [show filicide st pins x = st from by simp [filicide, hn]]; exact ⟨hq, fun c _ _ => rfl⟩
  | some nx =>
    by_cases he : nx.expanded = false
    · rw [show filicide st pins x = st from by simp [filicide, hn, he]]
      exact ⟨hq, fun c _ _ => rfl⟩
    · rw [show filicide st pins x =
        gc (st.upd x (fun m => { m with children := [], expanded := false })) (x :: pins) from
          by simp [filicide, hn, he]]
      set st1 := st.upd x (fun m => { m with children := [], expanded := false }) with hst1
      have hq1 : st1.node q = some nqv := by
        rw [hst1, node_upd_other st x q _ (fun hh => hx hh.symm)]
        exact hq
      have hqroot1 : q ∈ st1.roots := hqroot
      have hprotq : Protected st1 q := Or.inl hqroot1
      obtain ⟨hnq, _, _⟩ := gcAux_protected st1.heap.length st1 (x :: pins) q hprotq
      refine ⟨by rw [gc, hnq, hq1], ?_⟩
      intro c hcc hcx
      have hprotc : Protected st1 c := Or.inr ⟨q, nqv, hqroot1, hq1, hcc⟩
      obtain ⟨hnc, _, _⟩ := gcAux_protected st1.heap.length st1 (x :: pins) c hprotc
      rw [gc, hnc, hst1, node_upd_other st x c _ hcx]

/-- Filicide leaves the victim's own statistics and parent vector intact:
only the child list and the expanded flag change (when it is a child of
the live root q, so the cascade cannot reclaim it). -/
theorem filicide_self_stable (st : Tree) (pins : List NodeId) (x q : NodeId)
    (nqv nx : Node) (hq : st.node q = some nqv) (hqroot : q ∈ st.roots) (hx : x ≠ q)
    (hxc : x ∈ nqv.children) (hn : st.node x = some nx) :
    ∃ nx2, (filicide st pins x).node x = some nx2 ∧ nx2.visits = nx.visits ∧
      nx2.wins = nx.wins ∧ nx2.ties = nx.ties ∧ nx2.parents = nx.parents := by
  by_cases he : nx.expanded = false
  · rw [show filicide st pins x = st from by simp [filicide, hn, he]]
    exact ⟨nx, hn, rfl, rfl, rfl, rfl⟩
  · rw [show filicide st pins x =
      gc (st.upd x (fun m => { m with children := [], expanded := false })) (x :: pins) from
        by simp [filicide, hn, he]]
    set st1 := st.upd x (fun m => { m with children := [], expanded := false }) with hst1
    have hq1 : st1.node q = some nqv := by
      rw [hst1, node_upd_other st x q _ (fun hh => hx hh.symm)]
      exact hq
    have hprotx : Protected st1 x := Or.inr ⟨q, nqv, hqroot, hq1, hxc⟩
    obtain ⟨hnx, _, _⟩ := gcAux_protected st1.heap.length st1 (x :: pins) x hprotx
    refine ⟨{ nx with children := [], expanded := false }, ?_, rfl, rfl, rfl, rfl⟩
    rw [gc, hnx, hst1, node_upd_self, hn]
    rfl

theorem filicide_dead (st : Tree) (pins : List NodeId) (x : NodeId)
    (hn : st.node x = none) : filicide st pins x = st := by
  simp [filicide, hn]

theorem foldl_const_max (v : Nat) (t : List NodeId) :
    t.foldl (fun mv _ => if mv > v then mv else v) v = v := by
  induction t with
  | nil => rfl
  | cons c t ih => rw [List.foldl_cons, if_neg (lt_irrefl v)]; exact ih

theorem pruneThreshold_eq (s : Tree) (q : NodeId) (nq : Node) (hq : s.node q = some nq)
    (hne : nq.children ≠ []) : pruneThreshold s q = nq.visits := by
  simp only [pruneThreshold, hq]
  cases hc : nq.children with
  | nil => exact absurd hc hne
  | cons c t =>
    rw [List.foldl_cons, if_neg (Nat.not_lt_zero nq.visits)]
    exact foldl_const_max nq.visits t

theorem visitsOf_filicide (st : Tree) (q c c2 : NodeId) (nq : Node)
    (hq : st.node q = some nq) (hqroot : q ∈ st.roots) (hcq : c ≠ q)
    (hcm : c ∈ nq.children) (hc2 : c2 ∈ nq.children) :
    (filicide st [q] c).visitsOf c2 = st.visitsOf c2 := by
  by_cases hc2c : c2 = c
  · subst hc2c
    cases hnx : st.node c2 with
    | none => rw [filicide_dead st [q] c2 hnx]
    | some nx =>
      obtain ⟨nx2, hn2, hv2, _, _, _⟩ :=
        filicide_self_stable st [q] c2 q nq nx hq hqroot hcq hcm hnx
      simp only [Tree.visitsOf, hn2, hnx, hv2]
  · have := (filicide_stable st [q] c q nq hq hqroot hcq).2 c2 hc2 hc2c
    simp only [Tree.visitsOf, this]

theorem pruneFold_eq (s : Tree) (q : NodeId) (nq : Node) (thr : Nat)
    (hqroot : q ∈ s.roots) (hself : q ∉ nq.children) :
    ∀ (l : List NodeId) (st : Tree),
      st.node q = some nq → st.roots = s.roots →
      (∀ c ∈ l, c ∈ nq.children) →
      (∀ c ∈ l, st.visitsOf c = s.visitsOf c) →
      l.foldl (fun st2 c => if st2.visitsOf c ≤ thr then filicide st2 [q] c else st2) st =
        (l.filter (fun c => s.visitsOf c ≤ thr)).foldl (fun st2 c => filicide st2 [q] c) st := by
  intro l
  induction l with
  | nil => intro st _ _ _ _; rfl
  | cons c t ih =>
    intro st hq hroots hsub hvis
    have hcm : c ∈ nq.children := hsub c (List.mem_cons_self _ _)
    have hcq : c ≠ q := fun hh => hself (hh ▸ hcm)
    have hvc : st.visitsOf c = s.visitsOf c := hvis c (List.mem_cons_self _ _)
    have hqroot2 : q ∈ st.roots := by rw [hroots]; exact hqroot
    rw [List.foldl_cons, List.filter_cons]
    by_cases hcond : s.visitsOf c ≤ thr
    · rw [if_pos (by rw [hvc]; exact hcond), if_pos (by simpa using hcond), List.foldl_cons]
      apply ih
      · exact (filicide_stable st [q] c q nq hq hqroot2 hcq).1
      · rw [roots_filicide, hroots]
      · intro c2 hc2; exact hsub c2 (List.mem_cons_of_mem _ hc2)
      · intro c2 hc2
        rw [visitsOf_filicide st q c c2 nq hq hqroot2 hcq hcm (hsub c2 (List.mem_cons_of_mem _ hc2))]
        exact hvis c2 (List.mem_cons_of_mem _ hc2)
    · rw [if_neg (by rw [hvc]; exact hcond), if_neg (by simpa using hcond)]
      apply ih st hq hroots
      · intro c2 hc2; exact hsub c2 (List.mem_cons_of_mem _ hc2)
      · intro c2 hc2; exact hvis c2 (List.mem_cons_of_mem _ hc2)

/-- C1 amended: while the table size exceeds max_size, each iteration
pops one frontier node q and invokes filicide on exactly those children
whose visit count does not exceed the threshold; the threshold is q's
own visit count (0 for a childless q), not the most-visited child's
count, and the most-visited child is not exempted. -/
theorem C1_amended (s : Tree) (max_size : Nat) (q : NodeId) (rest : List NodeId)
    (nq : Node) (hq : s.node q = some nq) (hqroot : q ∈ s.roots)
    (hself : q ∉ nq.children) (hsize : transposition_size s > max_size) :
    pruneLoop max_size (q :: rest) s = pruneLoop max_size rest (pruneStep s q) ∧
    (nq.children ≠ [] → pruneThreshold s q = nq.visits) ∧
    (∀ c, c ∈ codePruneTargets s q ↔
      c ∈ nq.children ∧ s.visitsOf c ≤ pruneThreshold s q) ∧
    pruneStep s q = (codePruneTargets s q).foldl (fun st c => filicide st [q] c) s := by
  have hch : s.childrenOf q = nq.children := by simp [Tree.childrenOf, hq]
  refine ⟨?_, fun hne => pruneThreshold_eq s q nq hq hne, ?_, ?_⟩
  · rw [pruneLoop, if_neg (by omega)]
  · intro c
    rw [codePruneTargets, hch, List.mem_filter]
    simp
  · rw [pruneStep, codePruneTargets, hch]
    exact pruneFold_eq s q nq (pruneThreshold s q) hqroot hself nq.children s hq rfl
      (fun c hc => hc) (fun c hc => rfl)

/-- Witness for C1 amended: the frontier iteration on the concrete tree
sC1 at its root, with the universally quantified characterisation
instantiated at the most-visited child 2. -/
theorem C1_witness :
    pruneLoop 3 [0] sC1 = pruneLoop 3 [] (pruneStep sC1 0) ∧
    pruneThreshold sC1 0 = 10 ∧
    (2 ∈ codePruneTargets sC1 0 ↔ 2 ∈ [1, 2] ∧ sC1.visitsOf 2 ≤ pruneThreshold sC1 0) ∧
    pruneStep sC1 0 = (codePruneTargets sC1 0).foldl (fun st c => filicide st [0] c) sC1 := by
  have h := C1_amended sC1 3 0 []
    { board := 0, visits := 10, wins := 0, ties := 0, expanded := true,
      moves := [0, 1], children := [1, 2], parents := [none] }
    (by decide) (by decide) (by decide) (by decide)
  exact ⟨h.1, h.2.1 (by decide), h.2.2.1 2, h.2.2.2⟩

theorem heapKeys_upd (s : Tree) (x : NodeId) (f : Node → Node) :
    heapKeys (s.upd x f) = heapKeys s := by
  simp only [heapKeys, Tree.upd, hset, List.map_map]
  apply List.map_congr_left
  intro kv _
  by_cases h : kv.1 = x <;> simp [h]

theorem keysNodup_destroy (s : Tree) (d : NodeId) (h : (heapKeys s).Nodup) :
    (heapKeys (destroyNode s d)).Nodup := by
  cases hn : s.node d with
  | none => rw [show destroyNode s d = s from by simp [destroyNode, hn]]; exact h
  | some n =>
    rw [show destroyNode s d = { s with heap := s.heap.filter (fun kv => !(kv.1 == d)), transposition_table := eraseKey s.transposition_table n.board, total_fillicides := s.total_fillicides + 1 } from by simp [destroyNode, hn]]
    show ((s.heap.filter (fun kv => !(kv.1 == d))).map (fun kv => kv.1)).Nodup
    exact h.sublist ((List.filter_sublist s.heap).map (fun kv => kv.1))

theorem keysNodup_gcAux (f : Nat) : ∀ (s : Tree) (pins : List NodeId),
    (heapKeys s).Nodup → (heapKeys (gcAux f s pins)).Nodup := by
  induction f with
  | zero => intro s pins h; exact h
  | succ f ih =>
    intro s pins h
    cases hfc : findCollectible s pins with
    | none => rw [show gcAux (f+1) s pins = s from by simp [gcAux, hfc]]; exact h
    | some d =>
      rw [show gcAux (f+1) s pins = gcAux f (destroyNode s d) pins from by simp [gcAux, hfc]]
      exact ih _ _ (keysNodup_destroy s d h)

theorem keysNodup_filicide (st : Tree) (pins : List NodeId) (x : NodeId)
    (h : (heapKeys st).Nodup) : (heapKeys (filicide st pins x)).Nodup := by
  cases hn : st.node x with
  | none => rw [filicide_dead st pins x hn]; exact h
  | some nx =>
    by_cases he : nx.expanded = false
    · rw [show filicide st pins x = st from by simp [filicide, hn, he]]; exact h
    · rw [show filicide st pins x =
        gc (st.upd x (fun m => { m with children := [], expanded := false })) (x :: pins) from
          by simp [filicide, hn, he]]
      rw [gc]
      apply keysNodup_gcAux
      rw [heapKeys_upd]
      exact h

theorem hset_not_mem (h : List (NodeId × Node)) (x : NodeId) (f : Node → Node)
    (hx : x ∉ h.map (fun kv => kv.1)) : hset h x f = h := by
  induction h with
  | nil => rfl
  | cons kv t ih =>
    obtain ⟨a, b⟩ := kv
    rw [hset_cons]
    have hax : ¬ a = x := by
      intro hh
      exact hx (by rw [← hh]; exact List.mem_cons_self _ _)
    rw [if_neg hax, ih (fun hm => hx (List.mem_cons_of_mem _ hm))]

theorem hset_eq_self (h : List (NodeId × Node)) (x : NodeId) (f : Node → Node)
    (nx : Node) (hnd : (h.map (fun kv => kv.1)).Nodup) (hfx : hfind h x = some nx)
    (hfix : f nx = nx) : hset h x f = h := by
  induction h with
  | nil => cases hfx
  | cons kv t ih =>
    obtain ⟨a, b⟩ := kv
    rw [hset_cons]
    rw [hfind_cons] at hfx
    rw [List.map_cons, List.nodup_cons] at hnd
    by_cases hax : a = x
    · rw [if_pos hax]
      rw [if_pos hax] at hfx
      have hb : b = nx := by injection hfx
      rw [hb, hfix, ← hb]
      rw [hset_not_mem t x f (hax ▸ hnd.1)]
    · rw [if_neg hax]
      rw [if_neg hax] at hfx
      rw [ih hnd.2 hfx]

/-- When a node's parent vector is a single live back reference, the lazy
purge of U is the identity on the state. -/
theorem purge_id (st : Tree) (c p : NodeId) (nc : Node)
    (hnd : (heapKeys st).Nodup) (hc : st.node c = some nc) (hp : nc.parents = [some p])
    (ha : st.alive p = true) : purgeParents st c = st := by
  have hfilter : nc.parents.filter (liveEntry st) = nc.parents := by
    rw [hp]
    simp [liveEntry, ha]
  have hfix : (fun n => { n with parents := n.parents.filter (liveEntry st) }) nc = nc := by
    simp only [hfilter]
  rw [purgeParents, Tree.upd, hset_eq_self st.heap c _ nc hnd hc hfix]

theorem prunableAt_iff (qu : ℚ) (Qs : List ℚ) (i : Nat) :
    prunableAt qu Qs i = true ↔ ∃ j, j < Qs.length ∧ j ≠ i ∧ qu < Qs.getD j 0 := by
  rw [prunableAt, List.any_eq_true]
  constructor
  · rintro ⟨q, hmem, hlt⟩
    have hq : qu < q := by simpa using hlt
    rw [List.mem_append] at hmem
    cases hmem with
    | inl h =>
      obtain ⟨j, hj⟩ := List.mem_iff_getElem?.mp h
      have hji : j < i := by
        by_contra hge
        rw [List.getElem?_eq_none (l := Qs.take i)
          (by rw [List.length_take]; omega)] at hj
        cases hj
      rw [List.getElem?_take_of_lt hji] at hj
      have hjl : j < Qs.length := by
        by_contra hge
        rw [List.getElem?_eq_none (by omega)] at hj
        cases hj
      refine ⟨j, hjl, by omega, ?_⟩
      rw [List.getElem?_eq_getElem hjl] at hj
      have hqq : Qs[j] = q := by injection hj
      rw [List.getD_eq_getElem Qs 0 hjl, hqq]
      exact hq
    | inr h =>
      obtain ⟨k, hk⟩ := List.mem_iff_getElem?.mp h
      rw [List.getElem?_drop] at hk
      have hjl : i + 1 + k < Qs.length := by
        by_contra hge
        rw [List.getElem?_eq_none (by omega)] at hk
        cases hk
      refine ⟨i + 1 + k, hjl, by omega, ?_⟩
      rw [List.getElem?_eq_getElem hjl] at hk
      have hqq : Qs[i + 1 + k] = q := by injection hk
      rw [List.getD_eq_getElem Qs 0 hjl, hqq]
      exact hq
  · rintro ⟨j, hjl, hji, hlt⟩
    refine ⟨Qs[j], ?_, by rw [List.getD_eq_getElem Qs 0 hjl] at hlt; simpa using hlt⟩
    rw [List.mem_append]
    by_cases hcmp : j < i
    · exact Or.inl (List.mem_iff_getElem?.mpr
        ⟨j, by rw [List.getElem?_take_of_lt hcmp]; exact List.getElem?_eq_getElem hjl⟩)
    · refine Or.inr (List.mem_iff_getElem?.mpr ⟨j - (i + 1), ?_⟩)
      rw [List.getElem?_drop]
      rw [show i + 1 + (j - (i + 1)) = j from by omega]
      exact List.getElem?_eq_getElem hjl

theorem U_singleton (sqrtN : Nat → ℚ) (st : Tree) (c p : NodeId) (nc : Node)
    (hnd : (heapKeys st).Nodup) (hc : st.node c = some nc) (hp : nc.parents = [some p])
    (ha : st.alive p = true) :
    U sqrtN st c = (Cexp * sqrtN (st.visitsOf p) / (1 + (nc.visits : ℚ)), st) := by
  have hpu := purge_id st c p nc hnd hc hp ha
  rw [U, hpu]
  have hpar : st.parentsOf c = [some p] := by simp [Tree.parentsOf, hc, hp]
  have hsum : parentVisitSum st [some p] = st.visitsOf p := by simp [parentVisitSum]
  have hvis : st.visitsOf c = nc.visits := by simp [Tree.visitsOf, hc]
  rw [hpar, hsum, hvis]

theorem Q_fields (st : Tree) (c : NodeId) (nc : Node) (hc : st.node c = some nc) :
    Q st c = ((nc.wins : ℚ) + TIE_REWARD * (nc.ties : ℚ)) / (1 + (nc.visits : ℚ)) := by
  unfold Q
  rw [hc]

theorem pcFold_eq (sqrtN : Nat → ℚ) (s : Tree) (idq : NodeId) (n : Node) (Qs : List ℚ)
    (hq0 : s.node idq = some n) (hroot : idq ∈ s.roots) (hself : idq ∉ n.children)
    (hnd0 : (heapKeys s).Nodup) :
    ∀ (l : List (Nat × NodeId)) (st : Tree),
      st.node idq = some n → st.roots = s.roots → (heapKeys st).Nodup →
      (∀ ic ∈ l, ic.2 ∈ n.children) →
      (∀ c ∈ n.children, ∃ nc nc0, s.node c = some nc0 ∧ st.node c = some nc ∧
        nc.visits = nc0.visits ∧ nc.wins = nc0.wins ∧ nc.ties = nc0.ties ∧
        nc.parents = [some idq] ∧ nc0.parents = [some idq]) →
      l.foldl (fun st2 ic =>
          if prunableAt (Q st2 ic.2 + (U sqrtN st2 ic.2).1) Qs ic.1
          then filicide (U sqrtN st2 ic.2).2 [idq] ic.2 else (U sqrtN st2 ic.2).2) st =
        ((l.filter (fun ic => prunableAt (Q s ic.2 + (U sqrtN s ic.2).1) Qs ic.1)).map
          (fun ic => ic.2)).foldl (fun st2 c => filicide st2 [idq] c) st := by
  intro l
  induction l with
  | nil => intro st _ _ _ _ _; rfl
  | cons ic t ih =>
    intro st hstq hroots hnd hsub hrel
    obtain ⟨i, c⟩ := ic
    have hcm : c ∈ n.children := hsub (i, c) (List.mem_cons_self _ _)
    have hcq : c ≠ idq := fun hh => hself (hh ▸ hcm)
    obtain ⟨nc, nc0, hs0, hstc, hv, hw, hti, hparc, hparc0⟩ := hrel c hcm
    have haliveq : st.alive idq = true := by simp [Tree.alive, hstq]
    have haliveq0 : s.alive idq = true := by simp [Tree.alive, hq0]
    have hvisq : st.visitsOf idq = n.visits := by simp [Tree.visitsOf, hstq]
    have hvisq0 : s.visitsOf idq = n.visits := by simp [Tree.visitsOf, hq0]
    have hUst := U_singleton sqrtN st c idq nc hnd hstc hparc haliveq
    have hUs := U_singleton sqrtN s c idq nc0 hnd0 hs0 hparc0 haliveq0
    have hQst := Q_fields st c nc hstc
    have hQs := Q_fields s c nc0 hs0
    have hQeq : Q st c = Q s c := by rw [hQst, hQs, hv, hw, hti]
    have hUeq : (U sqrtN st c).1 = (U sqrtN s c).1 := by
      rw [hUst, hUs, hvisq, hvisq0, hv]
    have hcond : prunableAt (Q st c + (U sqrtN st c).1) Qs i =
        prunableAt (Q s c + (U sqrtN s c).1) Qs i := by rw [hQeq, hUeq]
    have hst2 : (U sqrtN st c).2 = st := by rw [hUst]
    have hst2p : (U sqrtN st (i, c).2).2 = st := hst2
    have hcondp : prunableAt (Q st (i, c).2 + (U sqrtN st (i, c).2).1) Qs (i, c).1 =
        prunableAt (Q s c + (U sqrtN s c).1) Qs i := hcond
    rw [List.foldl_cons, hst2p, hcondp, List.filter_cons]
    by_cases hc : prunableAt (Q s c + (U sqrtN s c).1) Qs i = true
    · rw [if_pos hc, if_pos (by simpa using hc), List.map_cons, List.foldl_cons]
      have hst3 := filicide_stable st [idq] c idq n hstq (hroots ▸ hroot) hcq
      apply ih
      · exact hst3.1
      · rw [roots_filicide, hroots]
      · exact keysNodup_filicide st [idq] c hnd
      · intro ic2 h2; exact hsub ic2 (List.mem_cons_of_mem _ h2)
      · intro c2 hc2
        obtain ⟨nc2, nc20, hs20, hstc2, hv2, hw2, hti2, hpar2, hpar20⟩ := hrel c2 hc2
        by_cases hc2c : c2 = c
        · subst hc2c
          obtain ⟨nx2, hn2, hvx, hwx, htx, hpx⟩ :=
            filicide_self_stable st [idq] c2 idq n nc2 hstq (hroots ▸ hroot) hcq hc2
              hstc2
          exact ⟨nx2, nc20, hs20, hn2, by rw [hvx, hv2], by rw [hwx, hw2],
            by rw [htx, hti2], by rw [hpx, hpar2], hpar20⟩
        · have := hst3.2 c2 hc2 hc2c
          exact ⟨nc2, nc20, hs20, by rw [this]; exact hstc2, hv2, hw2, hti2, hpar2, hpar20⟩
    · rw [if_neg hc, if_neg (by simpa using hc)]
      apply ih st hstq hroots hnd
      · intro ic2 h2; exact hsub ic2 (List.mem_cons_of_mem _ h2)
      · exact hrel

/-- C7 amended: prune_children records every child's bare Q upfront and
filicides exactly those children whose own Q + U is strictly smaller than
the recorded Q (not Q + U) of some other child; stated for a node whose
children each carry the single live back reference to it. -/
theorem C7_amended (sqrtN : Nat → ℚ) (s : Tree) (idq : NodeId) (n : Node)
    (hq0 : s.node idq = some n) (hroot : idq ∈ s.roots) (hself : idq ∉ n.children)
    (hnd0 : (heapKeys s).Nodup)
    (hpar : ∀ c ∈ n.children, ∃ nc0, s.node c = some nc0 ∧ nc0.parents = [some idq]) :
    prune_children sqrtN s idq =
      (pcTargets sqrtN s idq).foldl (fun st c => filicide st [idq] c) s ∧
    (∀ qu Qs i, prunableAt qu Qs i = true ↔
      ∃ j, j < Qs.length ∧ j ≠ i ∧ qu < Qs.getD j 0) := by
  refine ⟨?_, fun qu Qs i => prunableAt_iff qu Qs i⟩
  rw [prune_children, pcTargets, hq0]
  exact pcFold_eq sqrtN s idq n (n.children.map (fun c => Q s c)) hq0 hroot hself hnd0
    n.children.enum s hq0 rfl hnd0
    (fun ic hic => List.snd_mem_of_mem_enum hic)
    (fun c hc => by
      obtain ⟨nc0, hs0, hp0⟩ := hpar c hc
      exact ⟨nc0, nc0, hs0, hs0, rfl, rfl, rfl, hp0, hp0⟩)

/-- Witness for C7 amended at the concrete tree sC7, with the prunability
characterisation instantiated at the values of its two children. -/
theorem C7_witness :
    prune_children ratSqrt sC7 0 =
      (pcTargets ratSqrt sC7 0).foldl (fun st c => filicide st [0] c) sC7 ∧
    (prunableAt (18 / 25) [18 / 25, 36 / 25] 0 = true ↔
      ∃ j, j < ([18 / 25, 36 / 25] : List ℚ).length ∧ j ≠ 0 ∧
        (18 / 25 : ℚ) < ([18 / 25, 36 / 25] : List ℚ).getD j 0) := by
  have h := C7_amended ratSqrt sC7 0
    { board := 0, visits := 1, wins := 0, ties := 0, expanded := true,
      moves := [0, 1], children := [1, 2], parents := [none] }
    (by decide) (by decide) (by decide) (by decide)
    (by
      intro c hc
      fin_cases hc
      · exact ⟨{ board := 1, visits := 1, wins := 0, ties := 0, expanded := true, moves := [0], children := [3], parents := [some 0] }, by decide, rfl⟩
      · exact ⟨{ board := 2, visits := 0, wins := 0, ties := 0, expanded := false, moves := [0], children := [], parents := [some 0] }, by decide, rfl⟩)
  exact ⟨h.1, h.2 (18 / 25) [18 / 25, 36 / 25] 0⟩

theorem mem_heapKeys_of_node (s : Tree) (x : NodeId) (n : Node) (h : s.node x = some n) :
    x ∈ heapKeys s :=
  List.mem_map.mpr ⟨(x, n), hfind_some_mem s.heap x n h, rfl⟩

theorem node_none_of_not_mem (s : Tree) (x : NodeId) (h : x ∉ heapKeys s) :
    s.node x = none := by
  cases hn : s.node x with
  | none => rfl
  | some n => exact absurd (mem_heapKeys_of_node s x n hn) h

theorem node_nextId_none (s : Tree) (h : KeysBound s) : s.node s.nextId = none :=
  node_none_of_not_mem s s.nextId (fun hm => lt_irrefl _ (h _ hm))

theorem nview_zero_fields {m m0 : Node} (h : nview 0 m = nview 0 m0) :
    m.visits = m0.visits ∧ m.wins = m0.wins ∧ m.ties = m0.ties ∧
    m.children = m0.children ∧ m.moves = m0.moves ∧ m.expanded = m0.expanded ∧
    m.board = m0.board := by
  simp only [nview, Node.mk.injEq] at h
  obtain ⟨hb, hv, hw, ht, he, hm, hc, _⟩ := h
  exact ⟨by omega, hw, ht, hc, hm, he, hb⟩

theorem nview_parents_push (k : Nat) (e : Option NodeId) :
    ∀ m : Node, nview k { m with parents := m.parents ++ [e] } = nview k m := by
  intro m
  simp [nview]

/-- Effect of one get_node on every node: the freshness bound is kept, an
existing node keeps all fields except possibly its parent vector, and a
node that appears was absent before and starts with zeroed statistics, no
children and the expanded flag off. -/
theorem get_node_nview_all (g : Game) (s : Tree) (b : BoardId) (par : Option NodeId)
    (hk : KeysBound s) :
    KeysBound (get_node g s b par).2 ∧
    ∀ y, ((get_node g s b par).2.node y).map (nview 0) = (s.node y).map (nview 0) ∨
      (s.node y = none ∧ ∃ m, (get_node g s b par).2.node y = some m ∧
        m.visits = 0 ∧ m.wins = 0 ∧ m.ties = 0 ∧ m.expanded = false ∧ m.children = []) := by
  have hcreate : ∀ s2 : Tree, KeysBound s2 → s2.nextId = s.nextId → s2.heap = s.heap →
      KeysBound (createNode g s2 b par).2 ∧
      ∀ y, ((createNode g s2 b par).2.node y).map (nview 0) = (s2.node y).map (nview 0) ∨
        (s2.node y = none ∧ ∃ m, (createNode g s2 b par).2.node y = some m ∧
          m.visits = 0 ∧ m.wins = 0 ∧ m.ties = 0 ∧ m.expanded = false ∧ m.children = []) := by
    intro s2 hk2 hnext hheap
    have hshape : ∀ y, (createNode g s2 b par).2.node y =
        (if s2.nextId = y then some { board := b, visits := 0, wins := 0, ties := 0, expanded := false, moves := g.get_valid_moves b, children := [], parents := [par] } else s2.node y) ∧
        (createNode g s2 b par).2.nextId = s2.nextId + 1 ∧
        heapKeys (createNode g s2 b par).2 = s2.nextId :: heapKeys s2 := by
      intro y
      by_cases hp : par = none <;>
        simp [createNode, hp, Tree.node, hfind_cons, heapKeys]
    refine ⟨?_, ?_⟩
    · intro k hmem
      rw [(hshape 0).2.2] at hmem
      rw [(hshape 0).2.1]
      rcases List.mem_cons.mp hmem with h | h
      · exact h ▸ Nat.lt_succ_self _
      · exact Nat.lt_succ_of_lt (hk2 k h)
    · intro y
      rw [(hshape y).1]
      by_cases hy : s2.nextId = y
      · refine Or.inr ⟨?_, ?_⟩
        · rw [← hy]
          show s2.node s2.nextId = none
          rw [Tree.node, hheap, hnext]
          exact node_nextId_none s hk
        · rw [if_pos hy]
          exact ⟨_, rfl, rfl, rfl, rfl, rfl, rfl⟩
      · rw [if_neg hy]
        exact Or.inl rfl
  cases ht : tfind s.transposition_table b with
  | none =>
    have heq : get_node g s b par =
        createNode g { s with total_lookups := s.total_lookups + 1 } b par := by
      simp only [get_node]
      rw [show tfind ({ s with total_lookups := s.total_lookups + 1 } : Tree).transposition_table b
        = none from ht]
    rw [heq]
    exact hcreate _ hk rfl rfl
  | some id =>
    by_cases ha : s.alive id = true
    · cases par with
      | none =>
        rw [get_node_hit g s b id ht ha]
        exact ⟨hk, fun y => Or.inl rfl⟩
      | some p =>
        have hsh : ∀ y, ((get_node g s b (some p)).2.node y =
            (({ s with total_lookups := s.total_lookups + 1 } : Tree).upd id (fun n => { n with parents := n.parents ++ [some p] })).node y ∨
            (get_node g s b (some p)).2.node y =
            (({ s with roots := s.roots.erase id, total_lookups := s.total_lookups + 1 } : Tree).upd id (fun n => { n with parents := n.parents ++ [some p] })).node y) ∧
            (get_node g s b (some p)).2.nextId = s.nextId ∧
            (heapKeys (get_node g s b (some p)).2 = heapKeys (({ s with total_lookups := s.total_lookups + 1 } : Tree).upd id (fun n => { n with parents := n.parents ++ [some p] })) ∨
             heapKeys (get_node g s b (some p)).2 = heapKeys (({ s with roots := s.roots.erase id, total_lookups := s.total_lookups + 1 } : Tree).upd id (fun n => { n with parents := n.parents ++ [some p] }))) := by
          intro y
          simp only [get_node,
            show tfind ({ s with total_lookups := s.total_lookups + 1 } : Tree).transposition_table b
              = some id from ht]
          rw [if_pos (show ({ s with total_lookups := s.total_lookups + 1 } : Tree).alive id = true
            from ha)]
          by_cases hz : (({ s with total_lookups := s.total_lookups + 1 } : Tree).parentsOf id).length = 0 ∧
              (some p : Option NodeId) ≠ none
          · rw [if_pos hz]
            exact ⟨Or.inr rfl, rfl, Or.inr rfl⟩
          · rw [if_neg hz]
            exact ⟨Or.inl rfl, rfl, Or.inl rfl⟩
        refine ⟨?_, ?_⟩
        · intro k hmem
          rw [(hsh 0).2.1]
          cases (hsh 0).2.2 with
          | inl h => rw [h, heapKeys_upd] at hmem; exact hk k hmem
          | inr h => rw [h, heapKeys_upd] at hmem; exact hk k hmem
        · intro y
          left
          cases (hsh y).1 with
          | inl h =>
            rw [h, node_upd]
            by_cases hy : y = id
            · rw [if_pos hy]
              show ((s.node y).map (fun n => { n with parents := n.parents ++ [some p] })).map (nview 0) = (s.node y).map (nview 0)
              cases s.node y with
              | none => rfl
              | some m =>
                show some (nview 0 { m with parents := m.parents ++ [some p] }) = some (nview 0 m)
                rw [nview_parents_push 0 (some p) m]
            · rw [if_neg hy]
              rfl
          | inr h =>
            rw [h, node_upd]
            by_cases hy : y = id
            · rw [if_pos hy]
              show ((s.node y).map (fun n => { n with parents := n.parents ++ [some p] })).map (nview 0) = (s.node y).map (nview 0)
              cases s.node y with
              | none => rfl
              | some m =>
                show some (nview 0 { m with parents := m.parents ++ [some p] }) = some (nview 0 m)
                rw [nview_parents_push 0 (some p) m]
            · rw [if_neg hy]
              rfl
    · have hna : ¬ (({ s with total_lookups := s.total_lookups + 1 } : Tree).alive id = true) := ha
      have heq : get_node g s b par =
          createNode g { s with transposition_table := eraseKey s.transposition_table b,
                                total_lookups := s.total_lookups + 1 + 1 } b par := by
        simp only [get_node,
          show tfind ({ s with total_lookups := s.total_lookups + 1 } : Tree).transposition_table b
            = some id from ht]
        rw [if_neg hna]
      rw [heq]
      exact hcreate _ hk rfl rfl

theorem nview_parents_set (k : Nat) (ps : List (Option NodeId)) (m : Node) :
    nview k { m with parents := ps } = nview k m := by
  simp [nview]

theorem nview_bump (k : Nat) (m : Node) :
    nview k { m with visits := m.visits + 1 } = nview (k + 1) m := by
  simp only [nview, Node.mk.injEq, true_and, and_true]
  omega

theorem nview_map_congr (j : Nat) {o1 o2 : Option Node}
    (h : o1.map (nview 0) = o2.map (nview 0)) : o1.map (nview j) = o2.map (nview j) := by
  cases o1 with
  | none => cases o2 with
    | none => rfl
    | some m2 => cases h
  | some m1 => cases o2 with
    | none => cases h
    | some m2 =>
      have h2 : nview 0 m1 = nview 0 m2 := by
        have := h
        simp only [Option.map] at this
        injection this
      obtain ⟨hv, hw, ht, hc, hm, he, hb⟩ := nview_zero_fields h2
      show some (nview j m1) = some (nview j m2)
      simp only [nview]
      rw [hv, hw, ht, hc, hm, he, hb]

theorem upd_nview (s : Tree) (x : NodeId) (f : Node → Node)
    (hf : ∀ m, nview 0 (f m) = nview 0 m) (y : NodeId) :
    ((s.upd x f).node y).map (nview 0) = (s.node y).map (nview 0) := by
  rw [node_upd]
  by_cases hy : y = x
  · rw [if_pos hy]
    cases s.node y with
    | none => rfl
    | some m =>
      show some (nview 0 (f m)) = some (nview 0 m)
      rw [hf m]
  · rw [if_neg hy]

theorem purge_nview (s : Tree) (x y : NodeId) :
    ((purgeParents s x).node y).map (nview 0) = (s.node y).map (nview 0) :=
  upd_nview s x _ (fun m => nview_parents_set 0 _ m) y

theorem purge_keys (s : Tree) (x : NodeId) :
    heapKeys (purgeParents s x) = heapKeys s ∧ (purgeParents s x).nextId = s.nextId :=
  ⟨heapKeys_upd s x _, rfl⟩

theorem U_state (sqrtN : Nat → ℚ) (s : Tree) (x : NodeId) :
    (U sqrtN s x).2 = purgeParents s x := rfl

theorem max_PUCT_state (sqrtN : Nat → ℚ) (s : Tree) (x : NodeId) :
    (max_PUCT sqrtN s x).2.nextId = s.nextId ∧
    heapKeys (max_PUCT sqrtN s x).2 = heapKeys s ∧
    ∀ y, ((max_PUCT sqrtN s x).2.node y).map (nview 0) = (s.node y).map (nview 0) := by
  cases hn : s.node x with
  | none =>
    rw [show (max_PUCT sqrtN s x).2 = s from by simp [max_PUCT, hn]]
    exact ⟨rfl, rfl, fun y => rfl⟩
  | some n =>
    have hfold : ∀ (l : List NodeId) (acc : Option (NodeId × ℚ) × Tree),
        (l.foldl (fun acc c =>
          let q := Q acc.2 c
          let u := U sqrtN acc.2 c
          let puct := (1 - q) + u.1
          match acc.1 with
          | none => ((some (c, puct) : Option (NodeId × ℚ)), u.2)
          | some bp => if puct > bp.2 then (some (c, puct), u.2) else (acc.1, u.2)) acc).2.nextId =
          acc.2.nextId ∧
        heapKeys (l.foldl (fun acc c =>
          let q := Q acc.2 c
          let u := U sqrtN acc.2 c
          let puct := (1 - q) + u.1
          match acc.1 with
          | none => ((some (c, puct) : Option (NodeId × ℚ)), u.2)
          | some bp => if puct > bp.2 then (some (c, puct), u.2) else (acc.1, u.2)) acc).2 =
          heapKeys acc.2 ∧
        ∀ y, ((l.foldl (fun acc c =>
          let q := Q acc.2 c
          let u := U sqrtN acc.2 c
          let puct := (1 - q) + u.1
          match acc.1 with
          | none => ((some (c, puct) : Option (NodeId × ℚ)), u.2)
          | some bp => if puct > bp.2 then (some (c, puct), u.2) else (acc.1, u.2)) acc).2.node y).map (nview 0) =
          (acc.2.node y).map (nview 0) := by
      intro l
      induction l with
      | nil => intro acc; exact ⟨rfl, rfl, fun y => rfl⟩
      | cons c t ih =>
        intro acc
        rw [List.foldl_cons]
        have hstep : ∀ (acc2 : Option (NodeId × ℚ) × Tree),
            ((fun (acc : Option (NodeId × ℚ) × Tree) (c : NodeId) =>
              let q := Q acc.2 c
              let u := U sqrtN acc.2 c
              let puct := (1 - q) + u.1
              match acc.1 with
              | none => ((some (c, puct) : Option (NodeId × ℚ)), u.2)
              | some bp => if puct > bp.2 then (some (c, puct), u.2) else (acc.1, u.2)) acc2 c).2 =
            purgeParents acc2.2 c := by
          intro acc2
          obtain ⟨ob, st⟩ := acc2
          cases ob with
          | none => rfl
          | some bp =>
            by_cases hpc : (1 - Q st c) + (U sqrtN st c).1 > bp.2
            · show (if (1 - Q st c) + (U sqrtN st c).1 > bp.2
                then ((some (c, (1 - Q st c) + (U sqrtN st c).1) : Option (NodeId × ℚ)), (U sqrtN st c).2)
                else ((some bp : Option (NodeId × ℚ)), (U sqrtN st c).2)).2 = purgeParents st c
              rw [if_pos hpc]
              rfl
            · show (if (1 - Q st c) + (U sqrtN st c).1 > bp.2
                then ((some (c, (1 - Q st c) + (U sqrtN st c).1) : Option (NodeId × ℚ)), (U sqrtN st c).2)
                else ((some bp : Option (NodeId × ℚ)), (U sqrtN st c).2)).2 = purgeParents st c
              rw [if_neg hpc]
              rfl
        obtain ⟨ihn, ihk, ihv⟩ := ih ((fun (acc : Option (NodeId × ℚ) × Tree) (c : NodeId) =>
          let q := Q acc.2 c
          let u := U sqrtN acc.2 c
          let puct := (1 - q) + u.1
          match acc.1 with
          | none => ((some (c, puct) : Option (NodeId × ℚ)), u.2)
          | some bp => if puct > bp.2 then (some (c, puct), u.2) else (acc.1, u.2)) acc c)
        refine ⟨?_, ?_, ?_⟩
        · rw [ihn, hstep acc]
          exact (purge_keys acc.2 c).2
        · rw [ihk, hstep acc, (purge_keys acc.2 c).1]
        · intro y
          rw [ihv y, hstep acc, purge_nview]
    refine ⟨?_, ?_, ?_⟩
    · rw [show (max_PUCT sqrtN s x).2 = ((n.children.foldl (fun acc c =>
        let q := Q acc.2 c
        let u := U sqrtN acc.2 c
        let puct := (1 - q) + u.1
        match acc.1 with
        | none => ((some (c, puct) : Option (NodeId × ℚ)), u.2)
        | some bp => if puct > bp.2 then (some (c, puct), u.2) else (acc.1, u.2))
        ((none : Option (NodeId × ℚ)), s)).2) from by simp [max_PUCT, hn]]
      exact (hfold n.children (none, s)).1
    · rw [show (max_PUCT sqrtN s x).2 = ((n.children.foldl (fun acc c =>
        let q := Q acc.2 c
        let u := U sqrtN acc.2 c
        let puct := (1 - q) + u.1
        match acc.1 with
        | none => ((some (c, puct) : Option (NodeId × ℚ)), u.2)
        | some bp => if puct > bp.2 then (some (c, puct), u.2) else (acc.1, u.2))
        ((none : Option (NodeId × ℚ)), s)).2) from by simp [max_PUCT, hn]]
      exact (hfold n.children (none, s)).2.1
    · intro y
      rw [show (max_PUCT sqrtN s x).2 = ((n.children.foldl (fun acc c =>
        let q := Q acc.2 c
        let u := U sqrtN acc.2 c
        let puct := (1 - q) + u.1
        match acc.1 with
        | none => ((some (c, puct) : Option (NodeId × ℚ)), u.2)
        | some bp => if puct > bp.2 then (some (c, puct), u.2) else (acc.1, u.2))
        ((none : Option (NodeId × ℚ)), s)).2) from by simp [max_PUCT, hn]]
      exact (hfold n.children (none, s)).2.2 y

theorem map_bump (o : Option Node) (k : Nat) :
    (o.map (fun n => { n with visits := n.visits + 1 })).map (nview k) = o.map (nview (k + 1)) := by
  cases o with
  | none => rfl
  | some m =>
    show some (nview k { m with visits := m.visits + 1 }) = some (nview (k + 1) m)
    rw [nview_bump]

/-- Effect of one selection walk: no node is created or destroyed, the
id bound is untouched, and every node's statistics are unchanged except
for one visit increment per occurrence on the returned path (parent
vectors may be purged along the way). -/
theorem selectAux_effect (sqrtN : Nat → ℚ) :
    ∀ (fuel : Nat) (st : Tree) (cur : NodeId),
      (selectAux sqrtN fuel st cur).2.1.nextId = st.nextId ∧
      heapKeys (selectAux sqrtN fuel st cur).2.1 = heapKeys st ∧
      ∀ y, ((selectAux sqrtN fuel st cur).2.1.node y).map (nview 0) =
        (st.node y).map (nview ((selectAux sqrtN fuel st cur).1.count y)) := by
  have hbase : ∀ (st : Tree) (cur : NodeId),
      (st.upd cur (fun n => { n with visits := n.visits + 1 })).nextId = st.nextId ∧
      heapKeys (st.upd cur (fun n => { n with visits := n.visits + 1 })) = heapKeys st ∧
      ∀ y, ((st.upd cur (fun n => { n with visits := n.visits + 1 })).node y).map (nview 0) =
        (st.node y).map (nview (([cur] : List NodeId).count y)) := by
    intro st cur
    refine ⟨rfl, heapKeys_upd _ _ _, ?_⟩
    intro y
    rw [node_upd]
    by_cases hy : y = cur
    · rw [if_pos hy]
      rw [show (([cur] : List NodeId).count y) = 1 from by rw [hy]; simp]
      exact map_bump (st.node y) 0
    · rw [if_neg hy]
      rw [show (([cur] : List NodeId).count y) = 0 from by
        simp [List.count_singleton]
        exact fun hh => hy hh.symm]
  intro fuel
  induction fuel with
  | zero =>
    intro st cur
    by_cases he : st.expandedOf cur = true
    · rw [show selectAux sqrtN 0 st cur = ([], st, false) from by simp [selectAux, he]]
      refine ⟨rfl, rfl, fun y => ?_⟩
      rw [show (([] : List NodeId).count y) = 0 from rfl]
    · rw [show selectAux sqrtN 0 st cur =
        ([cur], st.upd cur (fun n => { n with visits := n.visits + 1 }), true) from by
          simp [selectAux, he]]
      exact hbase st cur
  | succ f ih =>
    intro st cur
    by_cases he : st.expandedOf cur = true
    · cases hr : (max_PUCT sqrtN st cur).1 with
      | none =>
        rw [show selectAux sqrtN (f+1) st cur =
          ([cur], (max_PUCT sqrtN st cur).2.upd cur (fun n => { n with visits := n.visits + 1 }),
            false) from by simp [selectAux, he, hr]]
        obtain ⟨hmn, hmk, hmv⟩ := max_PUCT_state sqrtN st cur
        obtain ⟨hbn, hbk, hbv⟩ := hbase (max_PUCT sqrtN st cur).2 cur
        refine ⟨by rw [hbn, hmn], by rw [hbk, hmk], ?_⟩
        intro y
        rw [hbv y]
        exact nview_map_congr _ (hmv y)
      | some nx =>
        set s2 := (max_PUCT sqrtN st cur).2.upd cur (fun n => { n with visits := n.visits + 1 })
          with hs2
        rw [show selectAux sqrtN (f+1) st cur =
          (cur :: (selectAux sqrtN f s2 nx).1, (selectAux sqrtN f s2 nx).2.1,
            (selectAux sqrtN f s2 nx).2.2) from by
              rw [hs2]
              simp [selectAux, he, hr]]
        obtain ⟨hmn, hmk, hmv⟩ := max_PUCT_state sqrtN st cur
        obtain ⟨ihn, ihk, ihv⟩ := ih s2 nx
        refine ⟨by rw [ihn, hs2]; show (max_PUCT sqrtN st cur).2.nextId = st.nextId; rw [hmn],
          by rw [ihk, hs2]; rw [show heapKeys ((max_PUCT sqrtN st cur).2.upd cur (fun n => { n with visits := n.visits + 1 })) = heapKeys (max_PUCT sqrtN st cur).2 from heapKeys_upd _ _ _, hmk], ?_⟩
        intro y
        rw [ihv y]
        set k := (selectAux sqrtN f s2 nx).1.count y with hk
        rw [List.count_cons]
        by_cases hy : y = cur
        · rw [if_pos (by simp [hy])]
          have h1 : (s2.node y).map (nview k) = ((max_PUCT sqrtN st cur).2.node y).map (nview (k + 1)) := by
            rw [hs2, node_upd, if_pos hy]
            exact map_bump _ k
          rw [h1]
          exact nview_map_congr _ (hmv y)
        · rw [if_neg (by simp only [beq_iff_eq]; exact fun hh => hy hh.symm)]
          have h1 : (s2.node y).map (nview k) = ((max_PUCT sqrtN st cur).2.node y).map (nview k) := by
            rw [hs2, node_upd, if_neg hy]
          rw [Nat.add_zero, h1]
          exact nview_map_congr _ (hmv y)
    · rw [show selectAux sqrtN (f+1) st cur =
        ([cur], st.upd cur (fun n => { n with visits := n.visits + 1 }), true) from by
          simp [selectAux, he]]
      exact hbase st cur

theorem map_addstats (o : Option Node) (dw1 dt1 dw2 dt2 : Nat) :
    ((o.map (fun m => { m with wins := m.wins + dw1, ties := m.ties + dt1 })).map
      (fun m => { m with wins := m.wins + dw2, ties := m.ties + dt2 })) =
    o.map (fun m => { m with wins := m.wins + (dw1 + dw2), ties := m.ties + (dt1 + dt2) }) := by
  cases o with
  | none => rfl
  | some m =>
    show some ({ m with wins := m.wins + dw1 + dw2, ties := m.ties + dt1 + dt2 } : Node) =
      some ({ m with wins := m.wins + (dw1 + dw2), ties := m.ties + (dt1 + dt2) } : Node)
    rw [Nat.add_assoc m.wins dw1 dw2, Nat.add_assoc m.ties dt1 dt2]

theorem map_addwin_comp (o : Option Node) (dw dt : Nat) :
    ((o.map (fun m => { m with wins := m.wins + 1 })).map
      (fun m => { m with wins := m.wins + dw, ties := m.ties + dt })) =
    o.map (fun m => { m with wins := m.wins + (1 + dw), ties := m.ties + (0 + dt) }) := by
  cases o with
  | none => rfl
  | some m =>
    show some ({ m with wins := m.wins + 1 + dw, ties := m.ties + dt } : Node) =
      some ({ m with wins := m.wins + (1 + dw), ties := m.ties + (0 + dt) } : Node)
    rw [Nat.add_assoc m.wins 1 dw, Nat.zero_add dt]

theorem map_addtie_comp (o : Option Node) (dw dt : Nat) :
    ((o.map (fun m => { m with ties := m.ties + 1 })).map
      (fun m => { m with wins := m.wins + dw, ties := m.ties + dt })) =
    o.map (fun m => { m with wins := m.wins + (0 + dw), ties := m.ties + (1 + dt) }) := by
  cases o with
  | none => rfl
  | some m =>
    show some ({ m with wins := m.wins + dw, ties := m.ties + 1 + dt } : Node) =
      some ({ m with wins := m.wins + (0 + dw), ties := m.ties + (1 + dt) } : Node)
    rw [Nat.add_assoc m.ties 1 dt, Nat.zero_add dw]

theorem map_stats_zero (o : Option Node) :
    o.map (fun m => { m with wins := m.wins + 0, ties := m.ties + 0 }) = o := by
  cases o with
  | none => rfl
  | some m =>
    show some { m with wins := m.wins + 0, ties := m.ties + 0 } = some m
    rw [Nat.add_zero, Nat.add_zero]

/-- Effect of backpropagation on every node: no creation, destruction or
id-bound change; each node gains at most one win-or-tie increment per
occurrence on the path, and nothing else changes. -/
theorem backprop_effect (g : Game) (rb : BoardId) :
    ∀ (p : List NodeId) (st : Tree),
      (backpropagate g rb p st).nextId = st.nextId ∧
      heapKeys (backpropagate g rb p st) = heapKeys st ∧
      ∀ y, ∃ dw dt, dw + dt ≤ p.count y ∧
        (backpropagate g rb p st).node y =
          (st.node y).map (fun m => { m with wins := m.wins + dw, ties := m.ties + dt }) := by
  intro p
  induction p with
  | nil =>
    intro st
    exact ⟨rfl, rfl, fun y => ⟨0, 0, by simp, (map_stats_zero (st.node y)).symm⟩⟩
  | cons hd t ih =>
    intro st
    have hcount : ∀ y, (t.count y) ≤ ((hd :: t).count y) := by
      intro y
      rw [List.count_cons]
      exact Nat.le_add_right _ _
    cases hn : st.node hd with
    | none =>
      have hstep : backpropagate g rb (hd :: t) st = backpropagate g rb t st := by
        simp [backpropagate, List.foldl_cons, hn]
      rw [hstep]
      obtain ⟨ihn, ihk, ihv⟩ := ih st
      refine ⟨ihn, ihk, fun y => ?_⟩
      obtain ⟨dw, dt, hle, heq⟩ := ihv y
      exact ⟨dw, dt, le_trans hle (hcount y), heq⟩
    | some n =>
      by_cases hw : g.game_winner rb = g.player n.board
      · have hstep : backpropagate g rb (hd :: t) st =
            backpropagate g rb t (st.upd hd (fun m => { m with wins := m.wins + 1 })) := by
          simp [backpropagate, List.foldl_cons, hn, hw]
        rw [hstep]
        obtain ⟨ihn, ihk, ihv⟩ := ih (st.upd hd (fun m => { m with wins := m.wins + 1 }))
        refine ⟨by rw [ihn]; rfl, by rw [ihk]; exact heapKeys_upd _ _ _, fun y => ?_⟩
        obtain ⟨dw, dt, hle, heq⟩ := ihv y
        by_cases hy : y = hd
        · refine ⟨1 + dw, 0 + dt, ?_, ?_⟩
          · rw [List.count_cons, if_pos (by simp [hy])]
            omega
          · rw [heq, node_upd, if_pos hy]
            exact map_addwin_comp (st.node y) dw dt
        · refine ⟨dw, dt, le_trans hle (hcount y), ?_⟩
          rw [heq, node_upd, if_neg hy]
      · by_cases htie : g.game_winner rb = g.PLAYER_TIE
        · have hstep : backpropagate g rb (hd :: t) st =
              backpropagate g rb t (st.upd hd (fun m => { m with ties := m.ties + 1 })) := by
            simp [backpropagate, List.foldl_cons, hn, if_neg hw, if_pos htie]
          rw [hstep]
          obtain ⟨ihn, ihk, ihv⟩ := ih (st.upd hd (fun m => { m with ties := m.ties + 1 }))
          refine ⟨by rw [ihn]; rfl, by rw [ihk]; exact heapKeys_upd _ _ _, fun y => ?_⟩
          obtain ⟨dw, dt, hle, heq⟩ := ihv y
          by_cases hy : y = hd
          · refine ⟨0 + dw, 1 + dt, ?_, ?_⟩
            · rw [List.count_cons, if_pos (by simp [hy])]
              omega
            · rw [heq, node_upd, if_pos hy]
              exact map_addtie_comp (st.node y) dw dt
          · refine ⟨dw, dt, le_trans hle (hcount y), ?_⟩
            rw [heq, node_upd, if_neg hy]
        · have hstep : backpropagate g rb (hd :: t) st = backpropagate g rb t st := by
            simp [backpropagate, List.foldl_cons, hn, hw, htie]
          rw [hstep]
          obtain ⟨ihn, ihk, ihv⟩ := ih st
          refine ⟨ihn, ihk, fun y => ?_⟩
          obtain ⟨dw, dt, hle, heq⟩ := ihv y
          exact ⟨dw, dt, le_trans hle (hcount y), heq⟩

theorem SNodeInv_congr {m m1 : Node} (h : nview 0 m = nview 0 m1)
    (h1 : SNodeInv m1) : SNodeInv m := by
  obtain ⟨q1, q2, q3, q4, q5, q6, _⟩ := nview_zero_fields h
  obtain ⟨a1, a2, a3⟩ := h1
  refine ⟨?_, ?_, ?_⟩
  · rw [q1, q2, q3]
    exact a1
  · intro hf
    rw [q4]
    exact a2 (by rw [← q6]; exact hf)
  · intro hT
    rw [q4, q5]
    exact a3 (by rw [← q6]; exact hT)

/-- Effect of one expansion-loop iteration on every node, given the
expanded node is alive: the freshness bound is kept, the expanded node
keeps its statistics but gets the expanded flag and exactly one more
child, every other node either keeps all non-parent fields or is freshly
created with zeroed statistics. -/
theorem expandStep_effect (g : Game) (x : NodeId) (nb : BoardId) (st : Tree) (n : Node)
    (hk : KeysBound st) (hx : st.node x = some n) :
    KeysBound (expandStep g x nb st) ∧
    (∃ n', (expandStep g x nb st).node x = some n' ∧ n'.wins = n.wins ∧ n'.ties = n.ties ∧
      n'.visits = n.visits ∧ n'.moves = n.moves ∧ n'.expanded = true ∧
      n'.children.length = n.children.length + 1) ∧
    ∀ y, y ≠ x → (((expandStep g x nb st).node y).map (nview 0) = (st.node y).map (nview 0) ∨
      (st.node y = none ∧ ∃ m, (expandStep g x nb st).node y = some m ∧ m.visits = 0 ∧
        m.wins = 0 ∧ m.ties = 0 ∧ m.expanded = false ∧ m.children = [])) := by
  simp only [expandStep]
  have hk1 : KeysBound (st.upd x (fun n => { n with expanded := true })) := by
    intro k hmem
    rw [heapKeys_upd] at hmem
    exact hk k hmem
  obtain ⟨hk2, hall⟩ :=
    get_node_nview_all g (st.upd x (fun n => { n with expanded := true })) nb (some x) hk1
  have hx1 : (st.upd x (fun n => { n with expanded := true })).node x =
      some { n with expanded := true } := by
    rw [node_upd, if_pos rfl, hx]
    rfl
  refine ⟨?_, ?_, ?_⟩
  · intro k hmem
    rw [heapKeys_upd] at hmem
    exact hk2 k hmem
  · rcases hall x with hpres | ⟨hnone, _⟩
    · rw [hx1] at hpres
      cases hres : (get_node g (st.upd x (fun n => { n with expanded := true })) nb
          (some x)).2.node x with
      | none => rw [hres] at hpres; simp at hpres
      | some n2 =>
        rw [hres] at hpres
        simp only [Option.map] at hpres
        injection hpres with h2
        obtain ⟨hv, hw, ht, hc, hm, he, _⟩ := nview_zero_fields h2
        refine ⟨{ n2 with children := n2.children ++
            [(get_node g (st.upd x (fun n => { n with expanded := true })) nb (some x)).1] },
          ?_, hw, ht, by rw [hv], hm, he, ?_⟩
        · rw [node_upd, if_pos rfl, hres]
          rfl
        · show (n2.children ++ [_]).length = n.children.length + 1
          rw [List.length_append, hc]
          rfl
    · rw [hx1] at hnone
      exact Option.noConfusion hnone
  · intro y hy
    have hst1y : (st.upd x (fun n => { n with expanded := true })).node y = st.node y := by
      rw [node_upd, if_neg hy]
    have hfin : ((get_node g (st.upd x (fun n => { n with expanded := true })) nb
          (some x)).2.upd x (fun n => { n with children := n.children ++
            [(get_node g (st.upd x (fun n => { n with expanded := true })) nb
              (some x)).1] })).node y =
        (get_node g (st.upd x (fun n => { n with expanded := true })) nb (some x)).2.node y := by
      rw [node_upd, if_neg hy]
    rcases hall y with hpres | ⟨hnone, m, hm, hs1, hs2, hs3, hs4, hs5⟩
    · left
      rw [hfin, hpres, hst1y]
    · right
      rw [hst1y] at hnone
      exact ⟨hnone, m, by rw [hfin]; exact hm, hs1, hs2, hs3, hs4, hs5⟩

/-- Effect of the whole expansion loop: the expanded node gains one child
per processed move (keeping its statistics, with the expanded flag set as
soon as at least one move was processed), and every other node keeps its
non-parent fields or is freshly created with zeroed statistics. -/
theorem expandFold_effect (g : Game) (bb : BoardId) (x : NodeId) :
    ∀ (l : List Nat) (st : Tree) (n : Node), KeysBound st → st.node x = some n →
      KeysBound (l.foldl (fun st mv => expandStep g x (g.move bb mv) st) st) ∧
      (∃ n', (l.foldl (fun st mv => expandStep g x (g.move bb mv) st) st).node x = some n' ∧
        n'.wins = n.wins ∧ n'.ties = n.ties ∧ n'.visits = n.visits ∧ n'.moves = n.moves ∧
        n'.children.length = n.children.length + l.length ∧
        n'.expanded = (if l.isEmpty then n.expanded else true)) ∧
      ∀ y, y ≠ x →
        (((l.foldl (fun st mv => expandStep g x (g.move bb mv) st) st).node y).map (nview 0) =
            (st.node y).map (nview 0) ∨
          (st.node y = none ∧ ∃ m,
            (l.foldl (fun st mv => expandStep g x (g.move bb mv) st) st).node y = some m ∧
            m.visits = 0 ∧ m.wins = 0 ∧ m.ties = 0 ∧ m.expanded = false ∧ m.children = [])) := by
  intro l
  induction l with
  | nil =>
    intro st n hk hx
    exact ⟨hk, ⟨n, hx, rfl, rfl, rfl, rfl, by simp, by simp⟩, fun y _ => Or.inl rfl⟩
  | cons mv l ih =>
    intro st n hk hx
    obtain ⟨hk0, hid0, hy0⟩ := expandStep_effect g x (g.move bb mv) st n hk hx
    obtain ⟨n1, hx1, hw1, ht1, hv1, hm1, he1, hc1⟩ := hid0
    obtain ⟨hkF, hidF, hyF⟩ := ih (expandStep g x (g.move bb mv) st) n1 hk0 hx1
    simp only [List.foldl_cons]
    refine ⟨hkF, ?_, ?_⟩
    · obtain ⟨n', hfx, hw', ht', hv', hm', hc', he'⟩ := hidF
      refine ⟨n', hfx, hw'.trans hw1, ht'.trans ht1, hv'.trans hv1, hm'.trans hm1, ?_, ?_⟩
      · rw [hc', hc1, List.length_cons]
        omega
      · rw [he', he1]
        simp
    · intro y hy
      rcases hyF y hy with hpres | ⟨hnone1, m, hm, hs1, hs2, hs3, hs4, hs5⟩
      · rcases hy0 y hy with hpres0 | ⟨hnone0, m0, hm0, g1, g2, g3, g4, g5⟩
        · left
          rw [hpres, hpres0]
        · right
          refine ⟨hnone0, ?_⟩
          rw [hm0] at hpres
          cases hfin : (l.foldl (fun st mv => expandStep g x (g.move bb mv) st)
              (expandStep g x (g.move bb mv) st)).node y with
          | none => rw [hfin] at hpres; simp at hpres
          | some m2 =>
            rw [hfin] at hpres
            simp only [Option.map] at hpres
            injection hpres with h2
            obtain ⟨q1, q2, q3, q4, _, q6, _⟩ := nview_zero_fields h2
            exact ⟨m2, rfl, by rw [q1]; exact g1, by rw [q2]; exact g2, by rw [q3]; exact g3,
              by rw [q6]; exact g4, by rw [q4]; exact g5⟩
      · rcases hy0 y hy with hpres0 | ⟨_, m0, hm0, _⟩
        · right
          rw [hnone1] at hpres0
          have hstnone : st.node y = none := by
            cases hq : st.node y with
            | none => rfl
            | some mm => rw [hq] at hpres0; simp at hpres0
          exact ⟨hstnone, m, hm, hs1, hs2, hs3, hs4, hs5⟩
        · rw [hm0] at hnone1
          exact Option.noConfusion hnone1

/-- MCTSNode::expand preserves the per-node statistics invariant and the
id freshness bound. -/
theorem expand_preserves (g : Game) (s : Tree) (x : NodeId)
    (hs : StatInv s) (hk : KeysBound s) :
    StatInv (expand g s x) ∧ KeysBound (expand g s x) := by
  cases hn : s.node x with
  | none =>
    rw [show expand g s x = s from by simp [expand, hn]]
    exact ⟨hs, hk⟩
  | some n0 =>
    have hks1 : KeysBound (s.upd x (fun n => { n with visits := n.visits + 1 })) := by
      intro k hmem
      rw [heapKeys_upd] at hmem
      exact hk k hmem
    have hss1 : StatInv (s.upd x (fun n => { n with visits := n.visits + 1 })) := by
      intro y m hm
      rw [node_upd] at hm
      by_cases hy : y = x
      · rw [if_pos hy, hy, hn] at hm
        simp only [Option.map] at hm
        injection hm with hm2
        obtain ⟨a1, a2, a3⟩ := hs x n0 hn
        rw [← hm2]
        exact ⟨Nat.le_succ_of_le a1, a2, a3⟩
      · rw [if_neg hy] at hm
        exact hs y m hm
    cases hexp : n0.expanded with
    | true =>
      rw [show expand g s x = s.upd x (fun n => { n with visits := n.visits + 1 }) from by
        simp [expand, hn, hexp]]
      exact ⟨hss1, hks1⟩
    | false =>
      have hs1x : (s.upd x (fun n => { n with visits := n.visits + 1 })).node x =
          some { n0 with visits := n0.visits + 1 } := by
        rw [node_upd, if_pos rfl, hn]
        rfl
      have heq : expand g s x = n0.moves.foldl
          (fun st mv => expandStep g x (g.move n0.board mv) st)
          (s.upd x (fun n => { n with visits := n.visits + 1 })) := by
        simp [expand, hn, hexp, expandStep]
      obtain ⟨hkF, ⟨n', hfx, hw', ht', hv', hm', hc', he'⟩, hyF⟩ :=
        expandFold_effect g n0.board x n0.moves
          (s.upd x (fun n => { n with visits := n.visits + 1 }))
          { n0 with visits := n0.visits + 1 } hks1 hs1x
      rw [heq]
      have hchild0 : n0.children = [] := (hs x n0 hn).2.1 hexp
      refine ⟨?_, hkF⟩
      intro y m hm
      by_cases hy : y = x
      · rw [hy] at hm
        rw [hm] at hfx
        injection hfx with hmn
        rw [hmn]
        refine ⟨?_, ?_, ?_⟩
        · rw [hw', ht', hv']
          show n0.wins + n0.ties ≤ n0.visits + 1
          exact Nat.le_succ_of_le (hs x n0 hn).1
        · intro hf
          rw [he'] at hf
          cases hE : n0.moves.isEmpty with
          | true =>
            have hlen : n'.children.length = 0 := by
              rw [hc', hchild0]
              simp [List.isEmpty_iff.mp hE]
            exact List.eq_nil_of_length_eq_zero hlen
          | false =>
            rw [hE] at hf
            simp at hf
        · intro hT
          rw [hc', hm']
          show n0.children.length + n0.moves.length = n0.moves.length
          rw [hchild0, List.length_nil, Nat.zero_add]
      · rcases hyF y hy with hpres | ⟨_, m2, hm2, z1, z2, z3, z4, z5⟩
        · rw [hm] at hpres
          cases hq : (s.upd x (fun n => { n with visits := n.visits + 1 })).node y with
          | none => rw [hq] at hpres; simp at hpres
          | some m1 =>
            rw [hq] at hpres
            simp only [Option.map] at hpres
            injection hpres with h2
            exact SNodeInv_congr h2 (hss1 y m1 hq)
        · rw [hm] at hm2
          injection hm2 with hmm
          rw [← hmm] at z1 z2 z3 z4 z5
          refine ⟨by rw [z1, z2, z3], fun _ => z5, fun hT => ?_⟩
          rw [z4] at hT
          exact Bool.noConfusion hT

/-- The statistics invariant is carried along any per-node relation that
only adds visits (the effect of a selection walk). -/
theorem StatInv_nview (s s2 : Tree) (k : NodeId → Nat)
    (h : ∀ y, (s2.node y).map (nview 0) = (s.node y).map (nview (k y)))
    (hs : StatInv s) : StatInv s2 := by
  intro y m hm
  have hy := h y
  rw [hm] at hy
  cases hq : s.node y with
  | none => rw [hq] at hy; simp at hy
  | some m0 =>
    rw [hq] at hy
    simp only [Option.map] at hy
    injection hy with h2
    simp only [nview, Node.mk.injEq] at h2
    obtain ⟨_, hv, hw, ht, he, hmv, hc, _⟩ := h2
    obtain ⟨a1, a2, a3⟩ := hs y m0 hq
    refine ⟨?_, ?_, ?_⟩
    · rw [hw, ht]
      omega
    · intro hf
      rw [hc]
      exact a2 (by rw [← he]; exact hf)
    · intro hT
      rw [hc, hmv]
      exact a3 (by rw [← he]; exact hT)

/-- One mcts search iteration preserves the statistics invariant and the
id freshness bound: the selection walk adds one visit per occurrence of a
node on the path, backpropagation adds at most that many win/tie points,
and expansion fills the leaf's child list to exactly its move count. -/
theorem mctsIter_preserves (g : Game) (sqrtN : Nat → ℚ) (fuel : Nat) (s : Tree)
    (rootId : NodeId) (rb : BoardId) (hs : StatInv s) (hk : KeysBound s) :
    StatInv (mctsIter g sqrtN fuel s rootId rb) ∧
    KeysBound (mctsIter g sqrtN fuel s rootId rb) := by
  obtain ⟨hn1, hk1, hv1⟩ := selectAux_effect sqrtN fuel s rootId
  have hsA : StatInv (selectAux sqrtN fuel s rootId).2.1 :=
    StatInv_nview s _ (fun y => (selectAux sqrtN fuel s rootId).1.count y) hv1 hs
  have hkA : KeysBound (selectAux sqrtN fuel s rootId).2.1 := by
    intro k hmem
    rw [hk1] at hmem
    rw [hn1]
    exact hk k hmem
  obtain ⟨hn2, hk2, hv2⟩ :=
    backprop_effect g rb (selectAux sqrtN fuel s rootId).1 (selectAux sqrtN fuel s rootId).2.1
  have hsB : StatInv (backpropagate g rb (selectAux sqrtN fuel s rootId).1
      (selectAux sqrtN fuel s rootId).2.1) := by
    intro y m hm
    obtain ⟨dw, dt, hle, heq⟩ := hv2 y
    rw [hm] at heq
    cases hq : (selectAux sqrtN fuel s rootId).2.1.node y with
    | none => rw [hq] at heq; simp at heq
    | some m1 =>
      rw [hq] at heq
      simp only [Option.map] at heq
      injection heq with h2
      have hy1 := hv1 y
      rw [hq] at hy1
      cases hq0 : s.node y with
      | none => rw [hq0] at hy1; simp at hy1
      | some m0 =>
        rw [hq0] at hy1
        simp only [Option.map] at hy1
        injection hy1 with h3
        simp only [nview, Node.mk.injEq] at h3
        obtain ⟨_, hv3, hw3, ht3, he3, hm3, hc3, _⟩ := h3
        obtain ⟨a1, a2, a3⟩ := hs y m0 hq0
        rw [h2]
        refine ⟨?_, ?_, ?_⟩
        · show m1.wins + dw + (m1.ties + dt) ≤ m1.visits
          omega
        · intro hf
          show m1.children = []
          rw [hc3]
          exact a2 (by rw [← he3]; exact hf)
        · intro hT
          show m1.children.length = m1.moves.length
          rw [hc3, hm3]
          exact a3 (by rw [← he3]; exact hT)
  have hkB : KeysBound (backpropagate g rb (selectAux sqrtN fuel s rootId).1
      (selectAux sqrtN fuel s rootId).2.1) := by
    intro k hmem
    rw [hk2] at hmem
    rw [hn2]
    exact hkA k hmem
  cases hL : (selectAux sqrtN fuel s rootId).1.getLast? with
  | none =>
    simp only [mctsIter, hL]
    exact ⟨hsA, hkA⟩
  | some leaf =>
    simp only [mctsIter, hL]
    refine ⟨?_, ?_⟩
    · split
      · exact (expand_preserves g _ leaf hsB hkB).1
      · exact hsB
    · split
      · exact (expand_preserves g _ leaf hsB hkB).2
      · exact hkB

/-- The state after the initial root fetch of MCTSTree::mcts satisfies the
statistics invariant and the freshness bound. -/
theorem reachMCTS_init_inv (g : Game) (b : BoardId) :
    StatInv (get_node g emptyTree b none).2 ∧ KeysBound (get_node g emptyTree b none).2 := by
  have hheap : (get_node g emptyTree b none).2.heap =
      [(0, { board := b, visits := 0, wins := 0, ties := 0, expanded := false,
             moves := g.get_valid_moves b, children := [], parents := [none] })] := rfl
  have hnext : (get_node g emptyTree b none).2.nextId = 1 := rfl
  constructor
  · intro y m hm
    simp only [Tree.node, hheap, hfind_cons] at hm
    by_cases h0 : (0 : NodeId) = y
    · rw [if_pos h0] at hm
      injection hm with hm2
      rw [← hm2]
      exact ⟨Nat.le_refl 0, fun _ => rfl, fun hT => Bool.noConfusion hT⟩
    · rw [if_neg h0] at hm
      have hfe : hfind [] y = none := rfl
      rw [hfe] at hm
      exact Option.noConfusion hm
  · intro k hmem
    simp only [heapKeys, hheap, List.map_cons, List.map_nil, List.mem_singleton] at hmem
    rw [hnext, hmem]
    exact Nat.one_pos

/-- Every state reachable through the mcts loop satisfies the statistics
invariant and the freshness bound. -/
theorem reachMCTS_inv (g : Game) (sqrtN : Nat → ℚ) :
    ∀ (s : Tree) (r : NodeId), ReachMCTS g sqrtN s r → StatInv s ∧ KeysBound s := by
  intro s r h
  induction h with
  | init b => exact reachMCTS_init_inv g b
  | step h fuel rb ih => exact mctsIter_preserves g sqrtN fuel _ _ rb ih.1 ih.2

/-- C5: for every node, in every state reachable through the mcts
iteration loop (select, playout with arbitrary outcome, backpropagate,
expand) from the initial root fetch, 0 ≤ wins + ties ≤ visits holds, and
the child list's size is either 0 or equal to the size of the node's
fixed move list. -/
theorem C5_search_invariant (g : Game) (sqrtN : Nat → ℚ) (s : Tree) (r : NodeId)
    (h : ReachMCTS g sqrtN s r) (x : NodeId) (n : Node) (hn : s.node x = some n) :
    0 ≤ n.wins + n.ties ∧ n.wins + n.ties ≤ n.visits ∧
    (n.children.length = 0 ∨ n.children.length = n.moves.length) := by
  obtain ⟨hs, _⟩ := reachMCTS_inv g sqrtN s r h
  obtain ⟨a1, a2, a3⟩ := hs x n hn
  refine ⟨Nat.zero_le _, a1, ?_⟩
  cases he : n.expanded with
  | false =>
    left
    rw [a2 he]
    rfl
  | true =>
    right
    exact a3 he

theorem mem_of_contains {l : List NodeId} {a : NodeId} (h : l.contains a = true) : a ∈ l := by
  rw [List.contains_eq_any_beq, List.any_eq_true] at h
  obtain ⟨x, hx, hbeq⟩ := h
  rw [show a = x from by simpa using hbeq]
  exact hx

theorem hfind_filter_self (h : List (NodeId × Node)) (d : NodeId) :
    hfind (h.filter (fun kv => !(kv.1 == d))) d = none := by
  induction h with
  | nil => rfl
  | cons kv t ih =>
    cases hb : (kv.1 == d) with
    | true =>
      rw [show (kv :: t).filter (fun kv => !(kv.1 == d)) = t.filter (fun kv => !(kv.1 == d))
        from by simp [List.filter, hb]]
      exact ih
    | false =>
      rw [show (kv :: t).filter (fun kv => !(kv.1 == d)) =
          kv :: t.filter (fun kv => !(kv.1 == d)) from by simp [List.filter, hb]]
      obtain ⟨k, n⟩ := kv
      rw [hfind_cons, if_neg (by simpa using hb)]
      exact ih

theorem node_destroy_self (s : Tree) (d : NodeId) : (destroyNode s d).node d = none := by
  cases hn : s.node d with
  | none => rw [show destroyNode s d = s from by simp [destroyNode, hn]]; exact hn
  | some n =>
    rw [show destroyNode s d = { s with heap := s.heap.filter (fun kv => !(kv.1 == d)), transposition_table := eraseKey s.transposition_table n.board, total_fillicides := s.total_fillicides + 1 } from by simp [destroyNode, hn]]
    exact hfind_filter_self s.heap d

theorem nextId_destroy (s : Tree) (d : NodeId) : (destroyNode s d).nextId = s.nextId := by
  cases hn : s.node d with
  | none => simp [destroyNode, hn]
  | some n => simp [destroyNode, hn]

theorem heapKeys_destroy_sub (s : Tree) (d : NodeId) (k : NodeId)
    (h : k ∈ heapKeys (destroyNode s d)) : k ∈ heapKeys s := by
  cases hn : s.node d with
  | none => rw [show destroyNode s d = s from by simp [destroyNode, hn]] at h; exact h
  | some n =>
    rw [show heapKeys (destroyNode s d) =
      (s.heap.filter (fun kv => !(kv.1 == d))).map (fun kv => kv.1) from by
        simp [destroyNode, hn, heapKeys]] at h
    obtain ⟨kv, hkv, hk⟩ := List.mem_map.mp h
    exact List.mem_map.mpr ⟨kv, (List.mem_filter.mp hkv).1, hk⟩

theorem heap_destroy_mem (s : Tree) (d : NodeId) (kv : NodeId × Node)
    (h : kv ∈ (destroyNode s d).heap) : kv ∈ s.heap := by
  cases hn : s.node d with
  | none => rw [show destroyNode s d = s from by simp [destroyNode, hn]] at h; exact h
  | some n =>
    rw [show (destroyNode s d).heap = s.heap.filter (fun kv => !(kv.1 == d)) from by
      simp [destroyNode, hn]] at h
    exact (List.mem_filter.mp h).1

theorem roots_destroy_eq (s : Tree) (d : NodeId) : (destroyNode s d).roots = s.roots :=
  roots_destroy s d

theorem foldl_preserve {α β : Type _} (P : α → Prop) (step : α → β → α)
    (h : ∀ st c, P st → P (step st c)) : ∀ (l : List β) (st : α), P st → P (l.foldl step st) := by
  intro l
  induction l with
  | nil => intro st hst; exact hst
  | cons c t ih =>
    intro st hst
    rw [List.foldl_cons]
    exact ih _ (h st c hst)

theorem mem_eraseIdx_of_ne {α : Type _} :
    ∀ (l : List α) (i : Nat) (a : α), a ∈ l →
      (∀ h : i < l.length, l.get ⟨i, h⟩ ≠ a) → a ∈ l.eraseIdx i := by
  intro l
  induction l with
  | nil => intro i a ha _; exact absurd ha (List.not_mem_nil a)
  | cons x t ih =>
    intro i a ha hne
    cases i with
    | zero =>
      rw [show (x :: t).eraseIdx 0 = t from rfl]
      rcases List.mem_cons.mp ha with h | h
      · exact absurd h.symm (hne (Nat.succ_pos _))
      · exact h
    | succ i =>
      rw [show (x :: t).eraseIdx (i + 1) = x :: t.eraseIdx i from rfl]
      rcases List.mem_cons.mp ha with h | h
      · exact List.mem_cons.mpr (Or.inl h)
      · exact List.mem_cons.mpr (Or.inr (ih i a h (fun hlt => hne (Nat.succ_lt_succ hlt))))

theorem alive_of_heap_mem (s : Tree) (kv : NodeId × Node) (h : kv ∈ s.heap) :
    s.alive kv.1 = true := by
  simp only [Tree.alive, Tree.node, hfind]
  cases hfq : s.heap.find? (fun e => e.1 == kv.1) with
  | none => exact absurd (by simp) (List.find?_eq_none.mp hfq kv h)
  | some kv1 => rfl

/-- Destroying a collectible node preserves the structural invariant:
the destroyed node cannot be anyone's child (it was ownerless). -/
theorem destroy_bundle (s : Tree) (pins : List NodeId) (d : NodeId)
    (hcol : collectible s pins d = true) (h : RootInv s) : RootInv (destroyNode s d) := by
  obtain ⟨hnr, hno⟩ := collectible_spec s pins d hcol
  refine ⟨?_, ?_, ?_, ?_⟩
  · intro k hk
    rw [nextId_destroy]
    exact h.keysBound k (heapKeys_destroy_sub s d k hk)
  · intro r hr
    rw [nextId_destroy]
    rw [roots_destroy] at hr
    exact h.rootsBound r hr
  · rw [roots_destroy]
    exact h.rootsNodup
  · intro kv hkv c hc
    have hkv0 : kv ∈ s.heap := heap_destroy_mem s d kv hkv
    obtain ⟨nc, hnc, hp⟩ := h.edgeBack kv hkv0 c hc
    have hcd : c ≠ d := by
      intro heq
      have : ownedBy s d = true := by
        rw [ownedBy, List.any_eq_true]
        exact ⟨kv, hkv0, by rw [← heq]; simpa using hc⟩
      rw [this] at hno
      exact Bool.noConfusion hno
    refine ⟨nc, ?_, hp⟩
    rw [node_destroy_other s d c hcd]
    exact hnc

theorem gcAux_bundle : ∀ (f : Nat) (s : Tree) (pins : List NodeId),
    RootInv s → RootInv (gcAux f s pins) := by
  intro f
  induction f with
  | zero => intro s pins h; exact h
  | succ f ih =>
    intro s pins h
    cases hfc : findCollectible s pins with
    | none => rw [show gcAux (f+1) s pins = s from by simp [gcAux, hfc]]; exact h
    | some d =>
      rw [show gcAux (f+1) s pins = gcAux f (destroyNode s d) pins from by simp [gcAux, hfc]]
      exact ih _ _ (destroy_bundle s pins d (findCollectible_some s pins d hfc) h)

theorem destroy_heap_lt (s : Tree) (pins : List NodeId) (d : NodeId)
    (h : findCollectible s pins = some d) :
    (destroyNode s d).heap.length < s.heap.length := by
  obtain ⟨kv, hkv, hv⟩ := Option.map_eq_some'.mp h
  have hmem := List.mem_of_find?_eq_some hkv
  have hn : (s.node d).isSome = true := by
    rw [← hv]
    exact alive_of_heap_mem s kv hmem
  cases hn2 : s.node d with
  | none => rw [hn2] at hn; exact Bool.noConfusion hn
  | some n =>
    rw [show (destroyNode s d).heap = s.heap.filter (fun kv => !(kv.1 == d)) from by
      simp [destroyNode, hn2]]
    refine List.length_filter_lt_length_iff_exists.mpr ⟨kv, hmem, ?_⟩
    rw [hv]
    simp

/-- `heap.length` rounds of the cascade reach the fixpoint: nothing is
collectible in the resulting state. -/
theorem gcAux_fix : ∀ (f : Nat) (s : Tree) (pins : List NodeId), s.heap.length ≤ f →
    findCollectible (gcAux f s pins) pins = none := by
  intro f
  induction f with
  | zero =>
    intro s pins h0
    have hnil : s.heap = [] := List.eq_nil_of_length_eq_zero (Nat.le_zero.mp h0)
    show findCollectible s pins = none
    simp [findCollectible, hnil]
  | succ f ih =>
    intro s pins h0
    cases hfc : findCollectible s pins with
    | none => rw [show gcAux (f+1) s pins = s from by simp [gcAux, hfc]]; exact hfc
    | some d =>
      rw [show gcAux (f+1) s pins = gcAux f (destroyNode s d) pins from by simp [gcAux, hfc]]
      exact ih _ _ (by have := destroy_heap_lt s pins d hfc; omega)

/-- A state in which nothing is collectible (with no pins) has every live
node supported by a root-set entry or a live owner. -/
theorem supported_of_none (s : Tree) (h : findCollectible s [] = none) : OwnSupported s := by
  intro id ha
  have hncol : ¬ collectible s [] id = true := by
    intro hcol
    cases hn : s.node id with
    | none => rw [Tree.alive, hn] at ha; exact Bool.noConfusion ha
    | some n =>
      have hmem : (id, n) ∈ s.heap := hfind_some_mem s.heap id n hn
      have hfq : s.heap.find? (fun kv => collectible s [] kv.1) = none :=
        Option.map_eq_none'.mp h
      exact List.find?_eq_none.mp hfq (id, n) hmem hcol
  cases hr : s.roots.contains id with
  | true => exact Or.inl (mem_of_contains hr)
  | false =>
    cases ho : ownedBy s id with
    | true => exact Or.inr rfl
    | false =>
      have hnm : id ∉ s.roots := fun hm => by
        rw [show s.roots.contains id = true from by
          rw [List.contains_eq_any_beq, List.any_eq_true]; exact ⟨id, hm, by simp⟩] at hr
        exact Bool.noConfusion hr
      exact absurd (by simp [collectible, ho, hnm]) hncol

/-- Closed instance of the search-loop invariant at the root node of the
state produced by the initial root fetch of the trivial game. -/
theorem C5_search_invariant_witness :
    ((get_node gTriv emptyTree 5 none).2.node 0 =
      some { board := 5, visits := 0, wins := 0, ties := 0, expanded := false,
             moves := [], children := [], parents := [none] }) ∧
    (0 ≤ (0 : Nat) + 0 ∧ (0 : Nat) + 0 ≤ 0 ∧
      (([] : List NodeId).length = 0 ∨ ([] : List NodeId).length = ([] : List Nat).length)) :=
  ⟨by decide,
    C5_search_invariant gTriv ratSqrt _ _ (ReachMCTS.init 5) 0
      { board := 5, visits := 0, wins := 0, ties := 0, expanded := false,
        moves := [], children := [], parents := [none] } (by decide)⟩

/-- An in-place node update that can only shrink the child list and only
grow the parent list preserves the structural invariant. -/
theorem RootInv_upd_sub (s : Tree) (x : NodeId) (f : Node → Node)
    (hc : ∀ m, ∀ c ∈ (f m).children, c ∈ m.children)
    (hpar : ∀ m e, e ∈ m.parents → e ∈ (f m).parents)
    (h : RootInv s) : RootInv (s.upd x f) := by
  refine ⟨?_, h.rootsBound, h.rootsNodup, ?_⟩
  · intro k hk
    rw [heapKeys_upd] at hk
    exact h.keysBound k hk
  · intro kv hkv c hc2
    obtain ⟨kv0, hkv0, heq⟩ := List.mem_map.mp hkv
    have hsplit : c ∈ kv0.2.children ∧ kv.1 = kv0.1 := by
      by_cases hx0 : kv0.1 = x
      · rw [if_pos hx0] at heq
        rw [← heq] at hc2
        exact ⟨hc kv0.2 c hc2, by rw [← heq]⟩
      · rw [if_neg hx0] at heq
        rw [← heq] at hc2
        exact ⟨hc2, by rw [← heq]⟩
    obtain ⟨nc, hnc, hpmem⟩ := h.edgeBack kv0 hkv0 c hsplit.1
    by_cases hcx : c = x
    · refine ⟨f nc, by rw [node_upd, if_pos hcx, hnc]; rfl, ?_⟩
      rw [hsplit.2]
      exact hpar nc _ hpmem
    · exact ⟨nc, by rw [node_upd, if_neg hcx]; exact hnc, by rw [hsplit.2]; exact hpmem⟩

/-- Pushing a child edge onto x preserves the structural invariant as long
as the pushed node is alive and already carries the back reference to x —
exactly what get_node guarantees to the expansion loop. -/
theorem RootInv_upd_childpush (s : Tree) (x cnew : NodeId)
    (hnew : ∃ nc, s.node cnew = some nc ∧ (some x) ∈ nc.parents)
    (h : RootInv s) :
    RootInv (s.upd x (fun n => { n with children := n.children ++ [cnew] })) := by
  refine ⟨?_, h.rootsBound, h.rootsNodup, ?_⟩
  · intro k hk
    rw [heapKeys_upd] at hk
    exact h.keysBound k hk
  · intro kv hkv c hc2
    obtain ⟨kv0, hkv0, heq⟩ := List.mem_map.mp hkv
    by_cases hx0 : kv0.1 = x
    · rw [if_pos hx0] at heq
      rw [← heq] at hc2
      have hk1 : kv.1 = kv0.1 := by rw [← heq]
      rcases List.mem_append.mp hc2 with hold | hnew2
      · obtain ⟨nc, hnc, hpmem⟩ := h.edgeBack kv0 hkv0 c hold
        by_cases hcx : c = x
        · refine ⟨{ nc with children := nc.children ++ [cnew] },
            by rw [node_upd, if_pos hcx, hnc]; rfl, ?_⟩
          rw [hk1]
          exact hpmem
        · exact ⟨nc, by rw [node_upd, if_neg hcx]; exact hnc, by rw [hk1]; exact hpmem⟩
      · have hcc : c = cnew := by simpa using hnew2
        obtain ⟨nc, hnc, hpm⟩ := hnew
        by_cases hcx : c = x
        · refine ⟨{ nc with children := nc.children ++ [cnew] }, ?_, ?_⟩
          · rw [node_upd, if_pos hcx, hcc, hnc]
            rfl
          · rw [hk1, hx0]
            exact hpm
        · exact ⟨nc, by rw [node_upd, if_neg hcx, hcc]; exact hnc, by rw [hk1, hx0]; exact hpm⟩
    · rw [if_neg hx0] at heq
      rw [← heq] at hc2
      obtain ⟨nc, hnc, hpmem⟩ := h.edgeBack kv0 hkv0 c hc2
      by_cases hcx : c = x
      · refine ⟨{ nc with children := nc.children ++ [cnew] },
          by rw [node_upd, if_pos hcx, hnc]; rfl, ?_⟩
        rw [← heq]
        exact hpmem
      · exact ⟨nc, by rw [node_upd, if_neg hcx]; exact hnc, by rw [← heq]; exact hpmem⟩

/-- The lazy parent purge preserves the structural invariant: it removes
only expired back references, and edgeBack only asserts live ones. -/
theorem purge_bundle (s : Tree) (x : NodeId) (h : RootInv s) : RootInv (purgeParents s x) := by
  simp only [purgeParents]
  refine ⟨?_, h.rootsBound, h.rootsNodup, ?_⟩
  · intro k hk
    rw [heapKeys_upd] at hk
    exact h.keysBound k hk
  · intro kv hkv c hc2
    obtain ⟨kv0, hkv0, heq⟩ := List.mem_map.mp hkv
    have hsplit : c ∈ kv0.2.children ∧ kv.1 = kv0.1 := by
      by_cases hx0 : kv0.1 = x
      · rw [if_pos hx0] at heq
        rw [← heq] at hc2
        exact ⟨hc2, by rw [← heq]⟩
      · rw [if_neg hx0] at heq
        rw [← heq] at hc2
        exact ⟨hc2, by rw [← heq]⟩
    obtain ⟨nc, hnc, hpmem⟩ := h.edgeBack kv0 hkv0 c hsplit.1
    have halive : s.alive kv0.1 = true := alive_of_heap_mem s kv0 hkv0
    by_cases hcx : c = x
    · refine ⟨{ nc with parents := nc.parents.filter (liveEntry s) },
        by rw [node_upd, if_pos hcx, hnc]; rfl, ?_⟩
      rw [hsplit.2]
      exact List.mem_filter.mpr ⟨hpmem, by simpa [liveEntry] using halive⟩
    · exact ⟨nc, by rw [node_upd, if_neg hcx]; exact hnc, by rw [hsplit.2]; exact hpmem⟩

/-- Erasing one expired parent entry (the `i--`/erase idiom of U and
prune_ancestors) preserves the structural invariant. -/
theorem RootInv_eraseParent (s : Tree) (x : NodeId) (i : Nat)
    (hdead : ∀ e, (s.parentsOf x).get? i = some e → liveEntry s e = false)
    (h : RootInv s) :
    RootInv (s.upd x (fun n => { n with parents := n.parents.eraseIdx i })) := by
  refine ⟨?_, h.rootsBound, h.rootsNodup, ?_⟩
  · intro k hk
    rw [heapKeys_upd] at hk
    exact h.keysBound k hk
  · intro kv hkv c hc2
    obtain ⟨kv0, hkv0, heq⟩ := List.mem_map.mp hkv
    have hsplit : c ∈ kv0.2.children ∧ kv.1 = kv0.1 := by
      by_cases hx0 : kv0.1 = x
      · rw [if_pos hx0] at heq
        rw [← heq] at hc2
        exact ⟨hc2, by rw [← heq]⟩
      · rw [if_neg hx0] at heq
        rw [← heq] at hc2
        exact ⟨hc2, by rw [← heq]⟩
    obtain ⟨nc, hnc, hpmem⟩ := h.edgeBack kv0 hkv0 c hsplit.1
    have halive : s.alive kv0.1 = true := alive_of_heap_mem s kv0 hkv0
    by_cases hcx : c = x
    · refine ⟨{ nc with parents := nc.parents.eraseIdx i },
        by rw [node_upd, if_pos hcx, hnc]; rfl, ?_⟩
      rw [hsplit.2]
      refine mem_eraseIdx_of_ne nc.parents i (some kv0.1) hpmem ?_
      intro hlt hgeteq
      have hpx : s.parentsOf x = nc.parents := by
        rw [Tree.parentsOf, ← hcx, hnc]
      have hg : nc.parents.get? i = some (some kv0.1) := by
        rw [List.get?_eq_get hlt, hgeteq]
      have hdx := hdead (some kv0.1) (by rw [hpx]; exact hg)
      rw [show liveEntry s (some kv0.1) = s.alive kv0.1 from rfl, halive] at hdx
      exact Bool.noConfusion hdx
    · exact ⟨nc, by rw [node_upd, if_neg hcx]; exact hnc, by rw [hsplit.2]; exact hpmem⟩

/-- The create path of get_node preserves the structural invariant, and
the created node's parent vector is exactly the one-entry vector pushed
by the MCTSNode constructor. -/
theorem createNode_bundle (g : Game) (s : Tree) (b : BoardId) (par : Option NodeId)
    (h : RootInv s) : RootInv (createNode g s b par).2 ∧
    ∃ nc, (createNode g s b par).2.node (createNode g s b par).1 = some nc ∧
      nc.parents = [par] := by
  have hnode : ∀ c, (createNode g s b par).2.node c =
      (if s.nextId = c then some { board := b, visits := 0, wins := 0, ties := 0, expanded := false, moves := g.get_valid_moves b, children := [], parents := [par] } else s.node c) := by
    intro c
    by_cases hp : par = none <;> simp [createNode, hp, Tree.node, hfind_cons]
  have hnext : (createNode g s b par).2.nextId = s.nextId + 1 := by
    by_cases hp : par = none <;> simp [createNode, hp]
  have hheap : (createNode g s b par).2.heap =
      (s.nextId, { board := b, visits := 0, wins := 0, ties := 0, expanded := false, moves := g.get_valid_moves b, children := [], parents := [par] }) :: s.heap := by
    by_cases hp : par = none <;> simp [createNode, hp]
  have hroots : (createNode g s b par).2.roots = s.roots ++ [s.nextId] ∨
      (createNode g s b par).2.roots = s.roots := by
    by_cases hp : par = none
    · exact Or.inl (by simp [createNode, hp])
    · exact Or.inr (by simp [createNode, hp])
  have hid : (createNode g s b par).1 = s.nextId := by
    by_cases hp : par = none <;> simp [createNode, hp]
  refine ⟨⟨?_, ?_, ?_, ?_⟩, ?_⟩
  · intro k hk
    rw [hnext]
    rw [heapKeys, hheap, List.map_cons] at hk
    rcases List.mem_cons.mp hk with hk | hk
    · rw [hk]
      exact Nat.lt_succ_self _
    · exact Nat.lt_succ_of_lt (h.keysBound k hk)
  · intro r hr
    rw [hnext]
    cases hroots with
    | inl hr2 =>
      rw [hr2] at hr
      rcases List.mem_append.mp hr with hr | hr
      · exact Nat.lt_succ_of_lt (h.rootsBound r hr)
      · rw [List.mem_singleton.mp hr]
        exact Nat.lt_succ_self _
    | inr hr2 =>
      rw [hr2] at hr
      exact Nat.lt_succ_of_lt (h.rootsBound r hr)
  · cases hroots with
    | inl hr2 =>
      rw [hr2, List.nodup_append]
      refine ⟨h.rootsNodup, List.nodup_singleton _, ?_⟩
      intro a ha hb
      rw [List.mem_singleton.mp hb] at ha
      exact absurd (h.rootsBound _ ha) (Nat.lt_irrefl _)
    | inr hr2 =>
      rw [hr2]
      exact h.rootsNodup
  · intro kv hkv c hc
    rw [hheap] at hkv
    rcases List.mem_cons.mp hkv with hkv | hkv
    · rw [hkv] at hc
      exact absurd hc (List.not_mem_nil c)
    · obtain ⟨nc, hnc, hpm⟩ := h.edgeBack kv hkv c hc
      have hcne : ¬ s.nextId = c := by
        intro heqq
        have := h.keysBound c (mem_heapKeys_of_node s c nc hnc)
        rw [← heqq] at this
        exact Nat.lt_irrefl _ this
      exact ⟨nc, by rw [hnode c, if_neg hcne]; exact hnc, hpm⟩
  · refine ⟨{ board := b, visits := 0, wins := 0, ties := 0, expanded := false, moves := g.get_valid_moves b, children := [], parents := [par] }, ?_, rfl⟩
    rw [hid, hnode s.nextId, if_pos rfl]

/-- get_node preserves the structural invariant, and when a parent is
supplied the returned node is alive and carries the corresponding back
reference (hit path appends it, create path starts with it). -/
theorem get_node_bundle (g : Game) (s : Tree) (b : BoardId) (par : Option NodeId)
    (h : RootInv s) : RootInv (get_node g s b par).2 ∧
    ∀ p, par = some p → ∃ nc, (get_node g s b par).2.node (get_node g s b par).1 = some nc ∧
      (some p) ∈ nc.parents := by
  cases ht : tfind s.transposition_table b with
  | none =>
    have heq : get_node g s b par =
        createNode g { s with total_lookups := s.total_lookups + 1 } b par := by
      simp only [get_node]
      rw [show tfind ({ s with total_lookups := s.total_lookups + 1 } : Tree).transposition_table b
        = none from ht]
    rw [heq]
    have h1 : RootInv ({ s with total_lookups := s.total_lookups + 1 } : Tree) :=
      ⟨h.keysBound, h.rootsBound, h.rootsNodup, h.edgeBack⟩
    obtain ⟨hb2, nc, hnc, hpar⟩ := createNode_bundle g _ b par h1
    exact ⟨hb2, fun p hp => ⟨nc, hnc, by rw [hpar, hp]; exact List.mem_singleton.mpr rfl⟩⟩
  | some id =>
    by_cases ha : s.alive id = true
    · cases par with
      | none =>
        rw [get_node_hit g s b id ht ha]
        refine ⟨⟨h.keysBound, h.rootsBound, h.rootsNodup, h.edgeBack⟩, ?_⟩
        intro p hp
        exact absurd hp (by simp)
      | some p =>
        cases hn : s.node id with
        | none => rw [Tree.alive, hn] at ha; exact absurd ha (by simp)
        | some n =>
          have hsh : (get_node g s b (some p)).1 = id ∧
              (get_node g s b (some p)).2.nextId = s.nextId ∧
              (get_node g s b (some p)).2.heap =
                hset s.heap id (fun n => { n with parents := n.parents ++ [some p] }) ∧
              ((get_node g s b (some p)).2.roots = s.roots ∨
                (get_node g s b (some p)).2.roots = s.roots.erase id) := by
            simp only [get_node,
              show tfind ({ s with total_lookups := s.total_lookups + 1 } : Tree).transposition_table b
                = some id from ht]
            rw [if_pos (show ({ s with total_lookups := s.total_lookups + 1 } : Tree).alive id = true
              from ha)]
            by_cases hz : (({ s with total_lookups := s.total_lookups + 1 } : Tree).parentsOf id).length = 0 ∧
                (some p : Option NodeId) ≠ none
            · rw [if_pos hz]
              exact ⟨rfl, rfl, rfl, Or.inr rfl⟩
            · rw [if_neg hz]
              exact ⟨rfl, rfl, rfl, Or.inl rfl⟩
          obtain ⟨hid, hnext, hheap, hroots⟩ := hsh
          have hupd : RootInv (s.upd id (fun n => { n with parents := n.parents ++ [some p] })) :=
            RootInv_upd_sub s id _ (fun m c hc => hc) (fun m e he => List.mem_append_left _ he) h
          have hnodeq : ∀ c, (get_node g s b (some p)).2.node c =
              (s.upd id (fun n => { n with parents := n.parents ++ [some p] })).node c := by
            intro c
            rw [Tree.node, hheap]
            rfl
          refine ⟨⟨?_, ?_, ?_, ?_⟩, ?_⟩
          · intro k hk
            rw [hnext]
            rw [show heapKeys (get_node g s b (some p)).2 = heapKeys s from by
              rw [heapKeys, hheap]; exact heapKeys_upd s id (fun n => { n with parents := n.parents ++ [some p] })] at hk
            exact h.keysBound k hk
          · intro r hr
            rw [hnext]
            cases hroots with
            | inl hr2 => rw [hr2] at hr; exact h.rootsBound r hr
            | inr hr2 => rw [hr2] at hr; exact h.rootsBound r (List.mem_of_mem_erase hr)
          · cases hroots with
            | inl hr2 => rw [hr2]; exact h.rootsNodup
            | inr hr2 => rw [hr2]; exact h.rootsNodup.erase id
          · intro kv hkv c hc
            rw [hheap] at hkv
            obtain ⟨nc2, hnc2, hpm2⟩ := hupd.edgeBack kv hkv c hc
            refine ⟨nc2, ?_, hpm2⟩
            rw [hnodeq c]
            exact hnc2
          · intro p2 hp2
            injection hp2 with hpe
            refine ⟨{ n with parents := n.parents ++ [some p] }, ?_, ?_⟩
            · rw [hid, hnodeq id, node_upd, if_pos rfl, hn]
              rfl
            · rw [← hpe]
              exact List.mem_append_right _ (List.mem_singleton.mpr rfl)
    · have hna : ¬ (({ s with total_lookups := s.total_lookups + 1 } : Tree).alive id = true) := ha
      have heq : get_node g s b par =
          createNode g { s with transposition_table := eraseKey s.transposition_table b, total_lookups := s.total_lookups + 1 + 1 } b par := by
        simp only [get_node,
          show tfind ({ s with total_lookups := s.total_lookups + 1 } : Tree).transposition_table b
            = some id from ht]
        rw [if_neg hna]
      rw [heq]
      have h1 : RootInv ({ s with transposition_table := eraseKey s.transposition_table b, total_lookups := s.total_lookups + 1 + 1 } : Tree) :=
        ⟨h.keysBound, h.rootsBound, h.rootsNodup, h.edgeBack⟩
      obtain ⟨hb2, nc, hnc, hpar⟩ := createNode_bundle g _ b par h1
      exact ⟨hb2, fun p hp => ⟨nc, hnc, by rw [hpar, hp]; exact List.mem_singleton.mpr rfl⟩⟩

/-- filicide preserves the structural invariant: it only clears a child
list and then runs the reclamation cascade. -/
theorem filicide_bundle (s : Tree) (pins : List NodeId) (x : NodeId) (h : RootInv s) :
    RootInv (filicide s pins x) := by
  cases hn : s.node x with
  | none => rw [show filicide s pins x = s from by simp [filicide, hn]]; exact h
  | some n =>
    cases hexp : n.expanded with
    | false => rw [show filicide s pins x = s from by simp [filicide, hn, hexp]]; exact h
    | true =>
      rw [show filicide s pins x = gc (s.upd x (fun m => { m with children := [], expanded := false })) (x :: pins) from by simp [filicide, hn, hexp]]
      exact gcAux_bundle _ _ _
        (RootInv_upd_sub s x _ (fun m c hc => absurd hc (List.not_mem_nil c))
          (fun m e he => he) h)

/-- prune_ancestors (both the filicide sweep and the parent-walk loop)
preserves the structural invariant at every fuel. -/
theorem pa_bundle : ∀ (f : Nat),
    (∀ (s : Tree) (pins : List NodeId) (selfId keep : NodeId),
      RootInv s → RootInv (paAux f s pins selfId keep)) ∧
    (∀ (s : Tree) (pins : List NodeId) (selfId : NodeId) (i : Nat),
      RootInv s → RootInv (paParents f s pins selfId i)) := by
  intro f
  induction f with
  | zero => exact ⟨fun s _ _ _ h => h, fun s _ _ _ h => h⟩
  | succ f ih =>
    constructor
    · intro s pins selfId keep h
      simp only [paAux]
      apply ih.2
      by_cases hk : selfId = keep
      · rw [if_pos hk]
        exact h
      · rw [if_neg hk]
        refine foldl_preserve RootInv _ ?_ _ _ h
        intro st c hst
        by_cases hc : c = keep
        · rw [if_pos hc]
          exact hst
        · rw [if_neg hc]
          exact filicide_bundle st _ c hst
    · intro s pins selfId i h
      simp only [paParents]
      split
      · rename_i hlt
        split
        · rename_i heq
          apply ih.2
          refine RootInv_eraseParent s selfId i ?_ h
          intro e he
          rw [List.get?_eq_get hlt, heq] at he
          injection he with he2
          rw [← he2]
          rfl
        · rename_i p heq
          by_cases hal : s.alive p = true
          · rw [if_pos hal]
            exact ih.2 _ _ _ _ (ih.1 _ _ _ _ h)
          · rw [if_neg hal]
            apply ih.2
            refine RootInv_eraseParent s selfId i ?_ h
            intro e he
            rw [List.get?_eq_get hlt, heq] at he
            injection he with he2
            rw [← he2]
            show s.alive p = false
            exact Bool.not_eq_true _ ▸ hal
      · exact h

/-- One iteration of the expansion loop preserves the structural
invariant: the child pushed onto x is alive and back-references x. -/
theorem expandStep_bundle (g : Game) (x : NodeId) (nb : BoardId) (st : Tree)
    (h : RootInv st) : RootInv (expandStep g x nb st) := by
  have h1 : RootInv (st.upd x (fun n => { n with expanded := true })) :=
    RootInv_upd_sub st x _ (fun m c hc => hc) (fun m e he => he) h
  obtain ⟨h2, hpost⟩ :=
    get_node_bundle g (st.upd x (fun n => { n with expanded := true })) nb (some x) h1
  exact RootInv_upd_childpush _ x _ (hpost x rfl) h2

/-- MCTSNode::expand preserves the structural invariant. -/
theorem expand_bundle (g : Game) (s : Tree) (x : NodeId) (h : RootInv s) :
    RootInv (expand g s x) := by
  cases hn : s.node x with
  | none => rw [show expand g s x = s from by simp [expand, hn]]; exact h
  | some n0 =>
    have h1 : RootInv (s.upd x (fun n => { n with visits := n.visits + 1 })) :=
      RootInv_upd_sub s x _ (fun m c hc => hc) (fun m e he => he) h
    cases hexp : n0.expanded with
    | true =>
      rw [show expand g s x = s.upd x (fun n => { n with visits := n.visits + 1 }) from by
        simp [expand, hn, hexp]]
      exact h1
    | false =>
      rw [show expand g s x = n0.moves.foldl (fun st mv => expandStep g x (g.move n0.board mv) st) (s.upd x (fun n => { n with visits := n.visits + 1 })) from by
        simp [expand, hn, hexp, expandStep]]
      exact foldl_preserve RootInv _ (fun st mv hst => expandStep_bundle g x _ st hst) _ _ h1

/-- Every state reachable through the public operations satisfies the
structural invariant. -/
theorem reachT_bundle (g : Game) : ∀ s, ReachT g s → RootInv s := by
  intro s h
  induction h with
  | init =>
    exact ⟨fun k hk => absurd hk (by simp [heapKeys, emptyTree]),
      fun r hr => absurd hr (List.not_mem_nil r), List.nodup_nil,
      fun kv hkv => absurd hkv (List.not_mem_nil kv)⟩
  | gn h b par hp ih => exact gcAux_bundle _ _ _ (get_node_bundle g _ b par ih).1
  | ex h id ih => exact gcAux_bundle _ _ _ (expand_bundle g _ id ih)
  | uop h id ih => exact gcAux_bundle _ _ _ (purge_bundle _ id ih)
  | pa h fuel id ih => exact gcAux_bundle _ _ _ ((pa_bundle fuel).1 _ [] id id ih)

/-- Every state reachable through the public operations has all its live
nodes supported by the root set or a live owner (the trailing reclamation
cascade of each operation establishes the fixpoint). -/
theorem reachT_supported (g : Game) : ∀ s, ReachT g s → OwnSupported s := by
  intro s h
  cases h with
  | init =>
    intro id ha
    exact absurd ha (by simp [Tree.alive, Tree.node, emptyTree, hfind])
  | gn h b par hp => exact supported_of_none _ (gcAux_fix _ _ _ (Nat.le_refl _))
  | ex h id => exact supported_of_none _ (gcAux_fix _ _ _ (Nat.le_refl _))
  | uop h id => exact supported_of_none _ (gcAux_fix _ _ _ (Nat.le_refl _))
  | pa h fuel id => exact supported_of_none _ (gcAux_fix _ _ _ (Nat.le_refl _))

/-- Refutation of the root-iff-empty-parents claim: after fetching a root
node through the public get_node (with the caller handle dropped), the
node sits in the root set but its parent vector is the nonempty [none] —
the MCTSNode constructor pushes the null new_parent unconditionally. -/
theorem C4_counterexample :
    ReachT gTriv (gc (get_node gTriv emptyTree 0 none).2 []) ∧
    ∃ n, (gc (get_node gTriv emptyTree 0 none).2 []).node 0 = some n ∧
      0 ∈ (gc (get_node gTriv emptyTree 0 none).2 []).roots ∧ n.parents ≠ [] :=
  ⟨ReachT.gn ReachT.init 0 none (Or.inl rfl),
    { board := 0, visits := 0, wins := 0, ties := 0, expanded := false, moves := [], children := [], parents := [none] },
    by decide, by decide, by decide⟩

/-- C4 (amended): in every state reachable through the public operations
(get_node, expand, the U purge, prune_ancestors), every live node whose
parent vector is empty appears in the root set exactly once.  (The
converse direction of the original claim is false: a root's parent
vector holds the expired entry pushed for the null constructor parent
until a purge removes it.) -/
theorem C4_zero_parent_root (g : Game) (s : Tree) (h : ReachT g s) (x : NodeId) (n : Node)
    (hn : s.node x = some n) (hp : n.parents = []) : s.roots.count x = 1 := by
  have hsup := reachT_supported g s h
  have hb := reachT_bundle g s h
  have halive : s.alive x = true := by rw [Tree.alive, hn]; rfl
  cases hsup x halive with
  | inl hmem => exact List.count_eq_one_of_mem hb.rootsNodup hmem
  | inr howned =>
    rw [ownedBy, List.any_eq_true] at howned
    obtain ⟨kv, hkv, hcc⟩ := howned
    have hx : x ∈ kv.2.children := mem_of_contains hcc
    obtain ⟨nc, hnc, hpp⟩ := hb.edgeBack kv hkv x hx
    rw [hn] at hnc
    injection hnc with hnceq
    rw [← hnceq, hp] at hpp
    exact absurd hpp (List.not_mem_nil _)

/-- Closed instance of the amended claim: after a U-purge on the fetched
root its parent vector is empty and it sits in the root set once. -/
theorem C4_zero_parent_root_witness :
    ((gc (purgeParents (gc (get_node gTriv emptyTree 0 none).2 []) 0) []).node 0 =
      some { board := 0, visits := 0, wins := 0, ties := 0, expanded := false, moves := [], children := [], parents := [] }) ∧
    ({ board := 0, visits := 0, wins := 0, ties := 0, expanded := false, moves := [], children := [], parents := [] } : Node).parents = [] ∧
    (gc (purgeParents (gc (get_node gTriv emptyTree 0 none).2 []) 0) []).roots.count 0 = 1 :=
  ⟨by decide, rfl,
    C4_zero_parent_root gTriv _ (ReachT.uop (ReachT.gn ReachT.init 0 none (Or.inl rfl)) 0) 0
      { board := 0, visits := 0, wins := 0, ties := 0, expanded := false, moves := [], children := [], parents := [] }
      (by decide) rfl⟩

end MCTS
